import Mathlib

/-!
Verification of the `Graph` container of `src/src/lib/data/graph/Graph.cpp`
(an in-memory graph of hierarchically named nodes and typed directed edges).

The C++ classes `Node`, `Edge`, `Token` and `TokenComponentSignature` are not
part of the sources; only their caller `Graph.cpp` is.  Where their behavior
decides an operation, the corresponding Lean definition is modelled from the
specification (each such definition says so in its doc comment).  Pointers are
rendered as entity ids: ids are unique in every graph the API can build, and
entity values carry their id, so pointer identity coincides with id identity.
-/

namespace SourcetrailGraph

/-- `Node::NodeType`: the distinguished `NODE_UNDEFINED` placeholder plus the
concrete tags (collapsed to a numeric tag; only "undefined vs. concrete"
matters to `Graph.cpp`). -/
inductive NodeType where
  | undefined : NodeType
  | other : Nat → NodeType
deriving DecidableEq, Repr

/-- `Edge::EdgeType`: the reserved `EDGE_MEMBER` type plus the remaining tags
(collapsed to a numeric tag). -/
inductive EdgeType where
  | member : EdgeType
  | other : Nat → EdgeType
deriving DecidableEq, Repr

/-- A node entity: id, type tag, full hierarchical name and (modelled from the
spec) the optional attached `TokenComponentSignature` component. -/
structure Node where
  id : Nat
  type : NodeType
  name : String
  signature : Option String
deriving DecidableEq, Repr

/-- An edge entity: id, type tag and the ids of its two endpoint nodes
(`getFrom()` / `getTo()` in the C++). -/
structure Edge where
  id : Nat
  type : EdgeType
  fromId : Nat
  toId : Nat
deriving DecidableEq, Repr

/-- A log message produced through `LOG_WARNING` / `LOG_ERROR`. -/
inductive LogMsg where
  | warning : String → LogMsg
  | error : String → LogMsg
deriving DecidableEq, Repr

/-- The graph: the insertion-ordered owning collections `m_nodes` and
`m_edges`, plus the state of the external id generator (ids are assigned at
creation from a single counter shared by nodes and edges; modelled from the
spec, which only requires ids to be opaque, unique and stable). -/
structure Graph where
  nodes : List Node
  edges : List Edge
  nextId : Nat
deriving DecidableEq, Repr

/-- The ids of the nodes currently owned by the graph. -/
def nodeIds (g : Graph) : List Nat :=
  g.nodes.map (·.id)

/-- `Graph::findNode`: first node matching the predicate (linear scan). -/
def findNode (g : Graph) (func : Node → Bool) : Option Node :=
  g.nodes.find? func

/-- `Graph::findEdge`: first edge matching the predicate (linear scan). -/
def findEdge (g : Graph) (func : Edge → Bool) : Option Edge :=
  g.edges.find? func

/-- `Graph::getNode(fullName)`: first node whose full name matches. -/
def getNode (g : Graph) (fullName : String) : Option Node :=
  findNode g (fun n => n.name == fullName)

/-- `Graph::getNodeById`. -/
def getNodeById (g : Graph) (i : Nat) : Option Node :=
  findNode g (fun n => n.id == i)

/-- `Graph::getEdgeById`. -/
def getEdgeById (g : Graph) (i : Nat) : Option Edge :=
  findEdge g (fun e => e.id == i)

/-- The `Token` identity capability both entities satisfy. -/
inductive Token where
  | node : Node → Token
  | edge : Edge → Token
deriving DecidableEq, Repr

/-- `Token::getId`. -/
def Token.getId : Token → Nat
  | .node n => n.id
  | .edge e => e.id

/-- `Graph::findToken`: scan all nodes first, then all edges. -/
def findToken (g : Graph) (func : Token → Bool) : Option Token :=
  match findNode g (fun n => func (.node n)) with
  | some n => some (.node n)
  | none =>
    match findEdge g (fun e => func (.edge e)) with
    | some e => some (.edge e)
    | none => none

/-- `Graph::getTokenById`. -/
def getTokenById (g : Graph) (i : Nat) : Option Token :=
  findToken g (fun t => t.getId == i)

/-- Modelled from the spec (`Node`'s incident-edge index; `Node.cpp` is not in
the sources): every edge of the graph one of whose two endpoints is the node,
in insertion order.  Each edge registers itself with both endpoints when
constructed and deregisters when destroyed, so the node's own index always
lists exactly the owned edges incident to it. -/
def incidentEdges (g : Graph) (nid : Nat) : List Edge :=
  g.edges.filter (fun e => e.fromId == nid || e.toId == nid)

/-- Modelled from the spec (`Node::findEdgeOfType`; `Node.cpp` is not in the
sources): first edge of the given type in the node's incident-edge index that
satisfies the predicate. -/
def findEdgeOfType (g : Graph) (nid : Nat) (ty : EdgeType) (func : Edge → Bool) : Option Edge :=
  (incidentEdges g nid).find? (fun e => e.type == ty && func e)

/-- `Graph::getEdge(type, from, to)`: searches `from`'s incidence index for an
edge of the given type whose `to` endpoint matches (the lambda checks only
`e->getTo() == to`). -/
def getEdge (g : Graph) (ty : EdgeType) (fromId toId : Nat) : Option Edge :=
  findEdgeOfType g fromId ty (fun e => e.toId == toId)

/-- Modelled from the spec (`Node::getParentNode`; `Node.cpp` is not in the
sources): the parent is implied by the first incoming edge of the reserved
membership type in the node's incidence index. -/
def getParentNode (g : Graph) (nid : Nat) : Option Nat :=
  ((incidentEdges g nid).find? (fun e => e.type == EdgeType.member && e.toId == nid)).map (·.fromId)

/-- `Graph::insertEdge`: construct and store a new edge (fresh id). -/
def insertEdge (g : Graph) (ty : EdgeType) (fromId toId : Nat) : Edge × Graph :=
  let e : Edge := ⟨g.nextId, ty, fromId, toId⟩
  (e, { g with edges := g.edges ++ [e], nextId := g.nextId + 1 })

/-- `Graph::createEdge`: deduplicated edge creation. -/
def createEdge (g : Graph) (ty : EdgeType) (fromId toId : Nat) : Edge × Graph :=
  match getEdge g ty fromId toId with
  | some e => (e, g)
  | none => insertEdge g ty fromId toId

/-- `Graph::insertNode`: store a fresh node and, when a parent is given,
create the membership edge from the parent to it. -/
def insertNode (g : Graph) (ty : NodeType) (fullName : String) (parent : Option Nat) : Node × Graph :=
  let n : Node := ⟨g.nextId, ty, fullName, none⟩
  let g1 : Graph := { g with nodes := g.nodes ++ [n], nextId := g.nextId + 1 }
  match parent with
  | some p => (n, (createEdge g1 EdgeType.member p n.id).2)
  | none => (n, g1)

/-- `Graph::DELIMITER`. -/
def DELIMITER : String := "::"

/-- `sep` is an initial segment of the second list. -/
def leadsWith : List Char → List Char → Bool
  | [], _ => true
  | _ :: _, [] => false
  | a :: as, b :: bs => a == b && leadsWith as bs

/-- Character-level splitting on a delimiter, with structural fuel (one unit
per consumed character) so that concrete instances reduce. -/
def splitCharsFuel (sep : List Char) : Nat → List Char → List Char → List (List Char)
  | 0, acc, l => [acc.reverse ++ l]
  | fuel + 1, acc, l =>
    match l with
    | [] => [acc.reverse]
    | c :: rest =>
      if sep ≠ [] ∧ leadsWith sep (c :: rest) then
        acc.reverse :: splitCharsFuel sep fuel [] ((c :: rest).drop sep.length)
      else
        splitCharsFuel sep fuel (c :: acc) rest

/-- Modelled from the spec (`utility::split`; `utilityString.cpp` is not in
the sources): split the full name into ordered segments on each occurrence of
the delimiter. -/
def split (s delim : String) : List String :=
  (splitCharsFuel delim.data (s.data.length + 1) [] s.data).map (fun cs => String.mk cs)

/-- The loop body of `Graph::insertNodeHierarchy`: walk the segments left to
right accumulating the prefixed name (`acc = none` before the first segment,
mirroring `i > 0`), looking each level up and inserting it when absent;
intermediate levels get `NODE_UNDEFINED`, the final level the requested type;
`cur` is the previous level (the parent for a fresh insertion). -/
def insertNodeHierarchyGo (ty : NodeType) :
    Graph → Option Node → Option String → List String → Option Node × Graph
  | g, cur, _, [] => (cur, g)
  | g, cur, acc, seg :: rest =>
    let name : String :=
      match acc with
      | none => seg
      | some a => a ++ DELIMITER ++ seg
    let step : Node × Graph :=
      match getNode g name with
      | some c => (c, g)
      | none =>
        insertNode g (if rest.isEmpty then ty else NodeType.undefined) name (cur.map (·.id))
    insertNodeHierarchyGo ty step.2 (some step.1) (some name) rest

/-- `Graph::insertNodeHierarchy` (returns `none` only for an empty segment
list, matching the C++ returning the never-assigned null `node`). -/
def insertNodeHierarchy (g : Graph) (ty : NodeType) (fullName : String) : Option Node × Graph :=
  insertNodeHierarchyGo ty g none none (split fullName DELIMITER)

/-- `Node::setType` through the pointer returned by `getNode`: mutate the
stored node with that id in place (ids are unique in reachable states). -/
def setNodeType (g : Graph) (nid : Nat) (ty : NodeType) : Graph :=
  { g with nodes := g.nodes.map (fun n => if n.id == nid then { n with type := ty } else n) }

/-- `Graph::createNodeHierarchy(type, fullName)`. -/
def createNodeHierarchy (g : Graph) (ty : NodeType) (fullName : String) : Option Node × Graph :=
  match getNode g fullName with
  | some node =>
    if ty ≠ NodeType.undefined then
      (some { node with type := ty }, setNodeType g node.id ty)
    else
      (some node, g)
  | none => insertNodeHierarchy g ty fullName

/-- `Graph::createNodeHierarchy(fullName)` (the one-argument overload, using
`NODE_UNDEFINED`). -/
def createNodeHierarchyDefault (g : Graph) (fullName : String) : Option Node × Graph :=
  createNodeHierarchy g NodeType.undefined fullName

/-- Modelled from the spec (`Node::addComponentSignature`;
`TokenComponentSignature` is not in the sources): attach the signature
component to the stored node with that id. -/
def addComponentSignature (g : Graph) (nid : Nat) (sig : String) : Graph :=
  { g with nodes := g.nodes.map (fun n => if n.id == nid then { n with signature := some sig } else n) }

/-- `Graph::createNodeHierarchyWithDistinctSignature(type, fullName,
signature)`.  The outer `none` marks the undefined behavior of dereferencing
`getComponent<TokenComponentSignature>()` when the found node carries no
signature component; the inner option mirrors `insertNodeHierarchy`'s
(unreachable) null result. -/
def createNodeHierarchyWithDistinctSignature (g : Graph) (ty : NodeType)
    (fullName signature : String) : Option (Option Node × Graph) :=
  match getNode g fullName with
  | some node =>
    match node.signature with
    | none => none
    | some sig =>
      if sig == signature then
        if ty ≠ NodeType.undefined then
          some (some { node with type := ty }, setNodeType g node.id ty)
        else
          some (some node, g)
      else
        let step := insertNode g ty fullName (getParentNode g node.id)
        some (some { step.1 with signature := some signature },
              addComponentSignature step.2 step.1.id signature)
  | none =>
    match insertNodeHierarchy g ty fullName with
    | (some n, g1) =>
      some (some { n with signature := some signature }, addComponentSignature g1 n.id signature)
    | (none, g1) => some (none, g1)

/-- Erase the first node with the given id (pointer-identity erase from
`m_nodes`; ids are unique in reachable states). -/
def eraseFirstNodeById : List Node → Nat → List Node
  | [], _ => []
  | n :: rest, i => if n.id == i then rest else n :: eraseFirstNodeById rest i

/-- Erase the first edge with the given id (pointer-identity erase from
`m_edges`). -/
def eraseFirstEdgeById : List Edge → Nat → List Edge
  | [], _ => []
  | e :: rest, i => if e.id == i then rest else e :: eraseFirstEdgeById rest i

/-- `Graph::removeEdgeInternal`: erase the edge from `m_edges` when present,
silently do nothing otherwise. -/
def removeEdgeInternal (g : Graph) (eid : Nat) : Graph :=
  { g with edges := eraseFirstEdgeById g.edges eid }

/-- The ids of the children reached by the node's outgoing membership edges:
`node->forEachEdgeOfType(Edge::EDGE_MEMBER, ...)` with the lambda firing only
when `node == e->getFrom()`. -/
def memberChildIds (g : Graph) (nid : Nat) : List Nat :=
  ((incidentEdges g nid).filter (fun e => e.type == EdgeType.member && e.fromId == nid)).map (·.toId)

/-- `Graph::removeNode`, with an explicit fuel making the C++ recursion (which
terminates exactly when the membership relation is acyclic) structural.  The
snapshot of the outgoing membership edges is taken before any child is removed
(the spec mandates this snapshot; the C++ iterates the mutating index).  After
the children, every edge still incident to the node is removed from `m_edges`
(the net effect of `node->forEachEdge(removeEdgeInternal)`), the residual
zero-incident-edges check only logs, and the node is erased unconditionally. -/
def removeNodeFuel : Nat → Graph → Nat → Graph × List LogMsg
  | 0, g, _ => (g, [])
  | fuel + 1, g, nid =>
    if g.nodes.any (fun n => n.id == nid) then
      let folded := (memberChildIds g nid).foldl
        (fun acc cid =>
          let r := removeNodeFuel fuel acc.1 cid
          (r.1, acc.2 ++ r.2))
        (g, ([] : List LogMsg))
      let g2 : Graph :=
        { folded.1 with edges := folded.1.edges.filter (fun e => !(e.fromId == nid || e.toId == nid)) }
      let residualLog : List LogMsg :=
        if (incidentEdges g2 nid).length ≠ 0 then [LogMsg.error "Node has still edges."] else []
      ({ g2 with nodes := eraseFirstNodeById g2.nodes nid }, folded.2 ++ residualLog)
    else
      (g, [LogMsg.warning "Node was not found in the graph."])

/-- The recursive child removals of `Graph::removeNode` (the fold of the body
above), in snapshot order, named for the proofs. -/
def removeChildren (fuel : Nat) (g : Graph) (cs : List Nat) : Graph × List LogMsg :=
  cs.foldl
    (fun acc cid =>
      let r := removeNodeFuel fuel acc.1 cid
      (r.1, acc.2 ++ r.2))
    (g, ([] : List LogMsg))

/-- `Graph::removeNode` at the fuel sufficient for every membership-acyclic
graph (the recursion depth is bounded by the number of owned nodes). -/
def removeNode (g : Graph) (nid : Nat) : Graph × List LogMsg :=
  removeNodeFuel (g.nodes.length + 1) g nid

/-- `Graph::removeEdge`.  Returns `none` for the undefined behavior the source
reaches when the edge is not owned and not of the membership type: the lookup
loop ends with `it == m_edges.end()`, only a warning is logged (no early
return), and control falls through to `m_edges.erase(it)` on the end
iterator. -/
def removeEdge (g : Graph) (e : Edge) : Option (Graph × List LogMsg) :=
  if g.edges.any (fun x => x.id == e.id) then
    if e.type == EdgeType.member then
      some (g, [LogMsg.error "Cannot remove member edge, without removing the child node."])
    else
      some ({ g with edges := eraseFirstEdgeById g.edges e.id }, [])
  else
    if e.type == EdgeType.member then
      some (g, [LogMsg.warning "Edge was not found in the graph.",
                LogMsg.error "Cannot remove member edge, without removing the child node."])
    else
      none

/-- `Graph::addNodeAsPlainCopy`: import a node from another graph,
deduplicated by id; the shallow copy keeps the node's attributes (id
included). -/
def addNodeAsPlainCopy (g : Graph) (node : Node) : Node × Graph :=
  match getNodeById g node.id with
  | some n => (n, g)
  | none => (node, { g with nodes := g.nodes ++ [node] })

/-- `Graph::addEdgeAsPlainCopy`: import an edge from another graph,
deduplicated by id; first ensure both endpoint nodes exist locally, then store
a copy referencing the local endpoint copies.  `fromN` and `toN` are the node
entities the source edge's `getFrom()` / `getTo()` pointers refer to. -/
def addEdgeAsPlainCopy (g : Graph) (edge : Edge) (fromN toN : Node) : Edge × Graph :=
  match getEdgeById g edge.id with
  | some e => (e, g)
  | none =>
    let stepF := addNodeAsPlainCopy g fromN
    let stepT := addNodeAsPlainCopy stepF.2 toN
    let copy : Edge := { edge with fromId := stepF.1.id, toId := stepT.1.id }
    (copy, { stepT.2 with edges := stepT.2.edges ++ [copy] })

/-- `Graph::clear`. -/
def clear (g : Graph) : Graph :=
  { g with nodes := [], edges := [] }

/-- The empty graph (a fresh `Graph()` with the id generator at zero). -/
def emptyGraph : Graph :=
  ⟨[], [], 0⟩

/-! ## General lemmas about the operations -/

theorem any_id_eq_true_iff (g : Graph) (nid : Nat) :
    (g.nodes.any (fun n => n.id == nid)) = true ↔ nid ∈ nodeIds g := by
  rw [List.any_eq_true, nodeIds]
  constructor
  · rintro ⟨n, hn, h⟩
    exact List.mem_map.mpr ⟨n, hn, beq_iff_eq.mp h⟩
  · rintro h
    obtain ⟨n, hn, rfl⟩ := List.mem_map.mp h
    exact ⟨n, hn, by simp⟩

/-! ## C2: hierarchy materialization of `a::b::c` -/

/-- C2: `createNodeHierarchy` with full name `"a::b::c"` on the empty graph
produces exactly 3 nodes and 2 edges, all of the membership type, and a second
call with the same full name returns a node with the same id and leaves the
graph completely unchanged (no new nodes or edges). -/
theorem claim_C2_createNodeHierarchy_abc :
    (createNodeHierarchyDefault emptyGraph "a::b::c").2.nodes.length = 3
    ∧ (createNodeHierarchyDefault emptyGraph "a::b::c").2.edges.length = 2
    ∧ ((createNodeHierarchyDefault emptyGraph "a::b::c").2.edges.filter
        (fun e => e.type == EdgeType.member)).length = 2
    ∧ (createNodeHierarchyDefault (createNodeHierarchyDefault emptyGraph "a::b::c").2 "a::b::c").2
        = (createNodeHierarchyDefault emptyGraph "a::b::c").2
    ∧ (createNodeHierarchyDefault (createNodeHierarchyDefault emptyGraph "a::b::c").2 "a::b::c").1.map (·.id)
        = (createNodeHierarchyDefault emptyGraph "a::b::c").1.map (·.id) := by
  set_option maxRecDepth 100000 in decide

/-! ## C4: removing entities that are not in the graph -/

/-- C4: removing a node that is not in the node collection logs a warning and
leaves the graph unchanged — but the matching claim about `removeEdge` fails
on the code: for an edge that is not in the edge collection and is not of the
membership type, the lookup loop leaves `it == m_edges.end()`, the warning is
logged *without returning*, and control falls through to `m_edges.erase(it)`
on the end iterator — undefined behavior (modelled as `none`), not "graph
unchanged".  Evaluated here at the failing input (empty graph, non-member
edge id 7). -/
theorem claim_C4_removeMissing_eval :
    removeNode emptyGraph 0 = (emptyGraph, [LogMsg.warning "Node was not found in the graph."])
    ∧ removeEdge emptyGraph ⟨7, EdgeType.other 0, 0, 1⟩ = none := by
  decide

/-! ## C5: direct removal of a membership edge is rejected -/

/-- C5: for every membership-type edge present in the graph, `removeEdge` logs
an error and performs no mutation: the returned graph is exactly the input
graph (node and edge collections, counts and ids untouched). -/
theorem claim_C5_removeEdge_member_rejected (g : Graph) (e : Edge)
    (he : e ∈ g.edges) (hm : e.type = EdgeType.member) :
    removeEdge g e
      = some (g, [LogMsg.error "Cannot remove member edge, without removing the child node."]) := by
  have hany : (g.edges.any (fun x => x.id == e.id)) = true :=
    List.any_eq_true.mpr ⟨e, he, by simp⟩
  simp [removeEdge, hany, hm]

/-- Witness for C5: a concrete graph with one membership edge. -/
theorem claim_C5_removeEdge_member_rejected_witness :
    removeEdge
        ⟨[⟨0, NodeType.undefined, "a", none⟩, ⟨1, NodeType.undefined, "a::b", none⟩],
         [⟨2, EdgeType.member, 0, 1⟩], 3⟩
        ⟨2, EdgeType.member, 0, 1⟩
      = some (⟨[⟨0, NodeType.undefined, "a", none⟩, ⟨1, NodeType.undefined, "a::b", none⟩],
              [⟨2, EdgeType.member, 0, 1⟩], 3⟩,
             [LogMsg.error "Cannot remove member edge, without removing the child node."]) :=
  claim_C5_removeEdge_member_rejected _ _ (by decide) (by decide)

/-! ## C9: lookups signal absence as an absent result, nodes before edges -/

/-- C9: every lookup returns `none` when nothing matches (absence is a result,
never an error — the operations are total and have no failure channel), and
the unified token query scans all nodes before any edge, so a node matching
the id is returned in preference to any edge. -/
theorem claim_C9_lookups_absent (g : Graph) (fullName : String) (i : Nat)
    (ty : EdgeType) (fromId toId : Nat) :
    ((∀ n ∈ g.nodes, n.name ≠ fullName) → getNode g fullName = none)
    ∧ ((∀ n ∈ g.nodes, n.id ≠ i) → getNodeById g i = none)
    ∧ ((∀ e ∈ g.edges, e.id ≠ i) → getEdgeById g i = none)
    ∧ ((∀ e ∈ g.edges, ¬(e.type = ty ∧ e.toId = toId ∧ (e.fromId = fromId ∨ e.toId = fromId)))
        → getEdge g ty fromId toId = none)
    ∧ ((∀ n ∈ g.nodes, n.id ≠ i) → (∀ e ∈ g.edges, e.id ≠ i) → getTokenById g i = none)
    ∧ (∀ n, getNodeById g i = some n → getTokenById g i = some (Token.node n)) := by
  refine ⟨?_, ?_, ?_, ?_, ?_, ?_⟩
  · intro h
    exact List.find?_eq_none.mpr (fun n hn => by simpa using h n hn)
  · intro h
    exact List.find?_eq_none.mpr (fun n hn => by simpa using h n hn)
  · intro h
    exact List.find?_eq_none.mpr (fun e he => by simpa using h e he)
  · intro h
    apply List.find?_eq_none.mpr
    intro e he
    rw [incidentEdges, List.mem_filter] at he
    obtain ⟨hmem, hinc⟩ := he
    simp only [Bool.or_eq_true, beq_iff_eq] at hinc
    simp only [Bool.and_eq_true, beq_iff_eq, not_and]
    intro hty hto
    exact absurd ⟨hty, by simpa using hto, by tauto⟩ (h e hmem)
  · intro hn he
    have h1 : findNode g (fun n => (Token.node n).getId == i) = none :=
      List.find?_eq_none.mpr (fun n hmem => by simpa [Token.getId] using hn n hmem)
    have h2 : findEdge g (fun e => (Token.edge e).getId == i) = none :=
      List.find?_eq_none.mpr (fun e hmem => by simpa [Token.getId] using he e hmem)
    show (match findNode g (fun n => (Token.node n).getId == i) with
          | some n => some (Token.node n)
          | none =>
            match findEdge g (fun e => (Token.edge e).getId == i) with
            | some e => some (Token.edge e)
            | none => none) = none
    rw [h1, h2]
  · intro n hn
    show (match findNode g (fun m => (Token.node m).getId == i) with
          | some m => some (Token.node m)
          | none =>
            match findEdge g (fun e => (Token.edge e).getId == i) with
            | some e => some (Token.edge e)
            | none => none) = some (Token.node n)
    rw [show findNode g (fun m => (Token.node m).getId == i) = some n from hn]

/-- Witness for C9: a concrete graph with one node and one edge. -/
theorem claim_C9_lookups_absent_witness :
    getNode ⟨[⟨5, NodeType.undefined, "x", none⟩], [⟨6, EdgeType.other 0, 5, 5⟩], 7⟩ "y" = none
    ∧ getNodeById ⟨[⟨5, NodeType.undefined, "x", none⟩], [⟨6, EdgeType.other 0, 5, 5⟩], 7⟩ 9 = none
    ∧ getEdgeById ⟨[⟨5, NodeType.undefined, "x", none⟩], [⟨6, EdgeType.other 0, 5, 5⟩], 7⟩ 9 = none
    ∧ getEdge ⟨[⟨5, NodeType.undefined, "x", none⟩], [⟨6, EdgeType.other 0, 5, 5⟩], 7⟩
        (EdgeType.other 0) 5 7 = none
    ∧ getTokenById ⟨[⟨5, NodeType.undefined, "x", none⟩], [⟨6, EdgeType.other 0, 5, 5⟩], 7⟩ 9 = none
    ∧ getTokenById ⟨[⟨5, NodeType.undefined, "x", none⟩], [⟨6, EdgeType.other 0, 5, 5⟩], 7⟩ 5
        = some (Token.node ⟨5, NodeType.undefined, "x", none⟩) :=
  ⟨(claim_C9_lookups_absent _ "y" 9 (EdgeType.other 0) 5 7).1 (by decide),
   (claim_C9_lookups_absent _ "y" 9 (EdgeType.other 0) 5 7).2.1 (by decide),
   (claim_C9_lookups_absent _ "y" 9 (EdgeType.other 0) 5 7).2.2.1 (by decide),
   (claim_C9_lookups_absent _ "y" 9 (EdgeType.other 0) 5 7).2.2.2.1 (by decide),
   (claim_C9_lookups_absent _ "y" 9 (EdgeType.other 0) 5 7).2.2.2.2.1 (by decide) (by decide),
   (claim_C9_lookups_absent _ "y" 5 (EdgeType.other 0) 5 7).2.2.2.2.2
     ⟨5, NodeType.undefined, "x", none⟩ (by decide)⟩

/-! ## C7: cross-graph merge by plain copy -/

theorem addNodeAsPlainCopy_found (g : Graph) (x : Node) (i : Nat) (n0 : Node)
    (hx : x.id = i) (h : getNodeById g i = some n0) :
    addNodeAsPlainCopy g x = (n0, g) := by
  unfold addNodeAsPlainCopy
  rw [hx, h]

theorem addEdgeAsPlainCopy_found (g : Graph) (x : Edge) (fromN toN : Node) (i : Nat) (e0 : Edge)
    (hx : x.id = i) (h : getEdgeById g i = some e0) :
    addEdgeAsPlainCopy g x fromN toN = (e0, g) := by
  unfold addEdgeAsPlainCopy
  rw [hx, h]

theorem addNodeAsPlainCopy_edges (g : Graph) (x : Node) :
    (addNodeAsPlainCopy g x).2.edges = g.edges := by
  unfold addNodeAsPlainCopy
  cases h : getNodeById g x.id <;> rfl

theorem addNodeAsPlainCopy_fst_id (g : Graph) (x : Node) :
    (addNodeAsPlainCopy g x).1.id = x.id := by
  unfold addNodeAsPlainCopy
  cases h : getNodeById g x.id with
  | none => rfl
  | some n => simpa using List.find?_some h

theorem addNodeAsPlainCopy_fst_mem (g : Graph) (x : Node) :
    (addNodeAsPlainCopy g x).1 ∈ (addNodeAsPlainCopy g x).2.nodes := by
  unfold addNodeAsPlainCopy
  cases h : getNodeById g x.id with
  | none => simp
  | some n => simpa using List.mem_of_find?_eq_some h

theorem addNodeAsPlainCopy_mem_mono (g : Graph) (x : Node) {y : Node} (hy : y ∈ g.nodes) :
    y ∈ (addNodeAsPlainCopy g x).2.nodes := by
  unfold addNodeAsPlainCopy
  cases h : getNodeById g x.id with
  | some n => exact hy
  | none => simpa using Or.inl hy

theorem getNodeById_addNodeAsPlainCopy (g : Graph) (x : Node) :
    getNodeById (addNodeAsPlainCopy g x).2 x.id = some (addNodeAsPlainCopy g x).1 := by
  unfold addNodeAsPlainCopy
  cases h : getNodeById g x.id with
  | some n => exact h
  | none =>
    show getNodeById { g with nodes := g.nodes ++ [x] } x.id = some x
    unfold getNodeById findNode
    rw [List.find?_append]
    rw [show g.nodes.find? (fun n => n.id == x.id) = none from h]
    simp

theorem getEdgeById_addEdgeAsPlainCopy (g : Graph) (x : Edge) (fromN toN : Node) :
    getEdgeById (addEdgeAsPlainCopy g x fromN toN).2 x.id
      = some (addEdgeAsPlainCopy g x fromN toN).1 := by
  unfold addEdgeAsPlainCopy
  cases h : getEdgeById g x.id with
  | some e => exact h
  | none =>
    unfold getEdgeById findEdge
    show (((addNodeAsPlainCopy (addNodeAsPlainCopy g fromN).2 toN).2.edges
            ++ [{ x with fromId := (addNodeAsPlainCopy g fromN).1.id,
                         toId := (addNodeAsPlainCopy (addNodeAsPlainCopy g fromN).2 toN).1.id }]).find?
            (fun e => e.id == x.id))
        = some { x with fromId := (addNodeAsPlainCopy g fromN).1.id,
                        toId := (addNodeAsPlainCopy (addNodeAsPlainCopy g fromN).2 toN).1.id }
    rw [addNodeAsPlainCopy_edges, addNodeAsPlainCopy_edges, List.find?_append]
    rw [show g.edges.find? (fun e => e.id == x.id) = none from h]
    simp

/-- C7: plain-copy import is deduplicated by id — with a same-id source entity
already present the existing local entity is returned and the graph is
untouched, so two same-id imports return the identical destination entity and
create no duplicate — and a fresh edge import first ensures both endpoint
nodes exist locally via `addNodeAsPlainCopy` and stores a copy referencing
those local endpoint copies. -/
theorem claim_C7_plainCopy_dedup (g : Graph) (node node2 : Node) (edge edge2 : Edge)
    (fromN toN fromN2 toN2 : Node) :
    (∀ n0, getNodeById g node.id = some n0 → addNodeAsPlainCopy g node = (n0, g))
    ∧ (node2.id = node.id →
        addNodeAsPlainCopy (addNodeAsPlainCopy g node).2 node2 = addNodeAsPlainCopy g node)
    ∧ (∀ e0, getEdgeById g edge.id = some e0 → addEdgeAsPlainCopy g edge fromN toN = (e0, g))
    ∧ (edge2.id = edge.id →
        addEdgeAsPlainCopy (addEdgeAsPlainCopy g edge fromN toN).2 edge2 fromN2 toN2
          = addEdgeAsPlainCopy g edge fromN toN)
    ∧ (getEdgeById g edge.id = none →
        (∃ n ∈ (addEdgeAsPlainCopy g edge fromN toN).2.nodes, n.id = fromN.id)
        ∧ (∃ n ∈ (addEdgeAsPlainCopy g edge fromN toN).2.nodes, n.id = toN.id)
        ∧ (addEdgeAsPlainCopy g edge fromN toN).1.fromId = (addNodeAsPlainCopy g fromN).1.id
        ∧ (addEdgeAsPlainCopy g edge fromN toN).1.toId
            = (addNodeAsPlainCopy (addNodeAsPlainCopy g fromN).2 toN).1.id) := by
  refine ⟨?_, ?_, ?_, ?_, ?_⟩
  · intro n0 h
    exact addNodeAsPlainCopy_found g node node.id n0 rfl h
  · intro h
    rw [addNodeAsPlainCopy_found _ node2 node.id _ h (getNodeById_addNodeAsPlainCopy g node)]
  · intro e0 h
    exact addEdgeAsPlainCopy_found g edge fromN toN edge.id e0 rfl h
  · intro h
    rw [addEdgeAsPlainCopy_found _ edge2 fromN2 toN2 edge.id _ h
          (getEdgeById_addEdgeAsPlainCopy g edge fromN toN)]
  · intro h
    unfold addEdgeAsPlainCopy
    rw [h]
    refine ⟨⟨(addNodeAsPlainCopy g fromN).1, ?_, addNodeAsPlainCopy_fst_id g fromN⟩,
            ⟨(addNodeAsPlainCopy (addNodeAsPlainCopy g fromN).2 toN).1, ?_,
              addNodeAsPlainCopy_fst_id _ toN⟩, rfl, rfl⟩
    · exact addNodeAsPlainCopy_mem_mono _ toN (addNodeAsPlainCopy_fst_mem g fromN)
    · exact addNodeAsPlainCopy_fst_mem _ toN

/-- Witness for C7: a node already present by id, a repeated node import, a
repeated edge import, and a fresh edge import whose endpoints get copied. -/
theorem claim_C7_plainCopy_dedup_witness :
    addNodeAsPlainCopy ⟨[⟨0, NodeType.undefined, "a", none⟩], [], 1⟩ ⟨0, NodeType.other 1, "b", none⟩
      = (⟨0, NodeType.undefined, "a", none⟩, ⟨[⟨0, NodeType.undefined, "a", none⟩], [], 1⟩)
    ∧ addNodeAsPlainCopy
        (addNodeAsPlainCopy ⟨[], [], 0⟩ ⟨4, NodeType.undefined, "n", none⟩).2
        ⟨4, NodeType.other 2, "m", none⟩
      = addNodeAsPlainCopy ⟨[], [], 0⟩ ⟨4, NodeType.undefined, "n", none⟩
    ∧ addEdgeAsPlainCopy
        (addEdgeAsPlainCopy ⟨[], [], 0⟩ ⟨9, EdgeType.other 0, 4, 5⟩
          ⟨4, NodeType.undefined, "n", none⟩ ⟨5, NodeType.undefined, "m", none⟩).2
        ⟨9, EdgeType.member, 1, 2⟩ ⟨1, NodeType.undefined, "p", none⟩ ⟨2, NodeType.undefined, "q", none⟩
      = addEdgeAsPlainCopy ⟨[], [], 0⟩ ⟨9, EdgeType.other 0, 4, 5⟩
          ⟨4, NodeType.undefined, "n", none⟩ ⟨5, NodeType.undefined, "m", none⟩
    ∧ (∃ n ∈ (addEdgeAsPlainCopy ⟨[], [], 0⟩ ⟨9, EdgeType.other 0, 4, 5⟩
          ⟨4, NodeType.undefined, "n", none⟩ ⟨5, NodeType.undefined, "m", none⟩).2.nodes, n.id = 4) :=
  ⟨(claim_C7_plainCopy_dedup ⟨[⟨0, NodeType.undefined, "a", none⟩], [], 1⟩
      ⟨0, NodeType.other 1, "b", none⟩ ⟨0, NodeType.other 1, "b", none⟩
      ⟨9, EdgeType.other 0, 4, 5⟩ ⟨9, EdgeType.other 0, 4, 5⟩
      ⟨4, NodeType.undefined, "n", none⟩ ⟨5, NodeType.undefined, "m", none⟩
      ⟨4, NodeType.undefined, "n", none⟩ ⟨5, NodeType.undefined, "m", none⟩).1
      ⟨0, NodeType.undefined, "a", none⟩ (by decide),
   (claim_C7_plainCopy_dedup ⟨[], [], 0⟩ ⟨4, NodeType.undefined, "n", none⟩
      ⟨4, NodeType.other 2, "m", none⟩ ⟨9, EdgeType.other 0, 4, 5⟩ ⟨9, EdgeType.other 0, 4, 5⟩
      ⟨4, NodeType.undefined, "n", none⟩ ⟨5, NodeType.undefined, "m", none⟩
      ⟨4, NodeType.undefined, "n", none⟩ ⟨5, NodeType.undefined, "m", none⟩).2.1 (by decide),
   (claim_C7_plainCopy_dedup ⟨[], [], 0⟩ ⟨4, NodeType.undefined, "n", none⟩
      ⟨4, NodeType.other 2, "m", none⟩ ⟨9, EdgeType.other 0, 4, 5⟩ ⟨9, EdgeType.member, 1, 2⟩
      ⟨4, NodeType.undefined, "n", none⟩ ⟨5, NodeType.undefined, "m", none⟩
      ⟨1, NodeType.undefined, "p", none⟩ ⟨2, NodeType.undefined, "q", none⟩).2.2.2.1 (by decide),
   ((claim_C7_plainCopy_dedup ⟨[], [], 0⟩ ⟨4, NodeType.undefined, "n", none⟩
      ⟨4, NodeType.other 2, "m", none⟩ ⟨9, EdgeType.other 0, 4, 5⟩ ⟨9, EdgeType.member, 1, 2⟩
      ⟨4, NodeType.undefined, "n", none⟩ ⟨5, NodeType.undefined, "m", none⟩
      ⟨1, NodeType.undefined, "p", none⟩ ⟨2, NodeType.undefined, "q", none⟩).2.2.2.2 (by decide)).1⟩

/-! ## Structural lemmas about `removeNode` -/

theorem removeChildren_nil (fuel : Nat) (g : Graph) : removeChildren fuel g [] = (g, []) :=
  rfl

theorem removeChildren_foldl_log (fuel : Nat) (cs : List Nat) :
    ∀ (g : Graph) (logAcc : List LogMsg),
      cs.foldl
        (fun acc cid =>
          let r := removeNodeFuel fuel acc.1 cid
          (r.1, acc.2 ++ r.2)) (g, logAcc)
      = ((removeChildren fuel g cs).1, logAcc ++ (removeChildren fuel g cs).2) := by
  induction cs with
  | nil => intro g logAcc; simp [removeChildren]
  | cons c cs ih =>
    intro g logAcc
    rw [List.foldl_cons]
    rw [ih (removeNodeFuel fuel g c).1 (logAcc ++ (removeNodeFuel fuel g c).2)]
    have hrhs : removeChildren fuel g (c :: cs)
        = ((removeChildren fuel (removeNodeFuel fuel g c).1 cs).1,
           (removeNodeFuel fuel g c).2 ++ (removeChildren fuel (removeNodeFuel fuel g c).1 cs).2) := by
      unfold removeChildren
      rw [List.foldl_cons]
      rw [ih (removeNodeFuel fuel g c).1 ([] ++ (removeNodeFuel fuel g c).2)]
      simp only [List.nil_append, Prod.mk.injEq]
      exact ⟨rfl, rfl⟩
    rw [hrhs]
    simp

theorem removeChildren_cons (fuel : Nat) (g : Graph) (c : Nat) (cs : List Nat) :
    removeChildren fuel g (c :: cs)
      = ((removeChildren fuel (removeNodeFuel fuel g c).1 cs).1,
         (removeNodeFuel fuel g c).2 ++ (removeChildren fuel (removeNodeFuel fuel g c).1 cs).2) := by
  unfold removeChildren
  rw [List.foldl_cons]
  rw [removeChildren_foldl_log fuel cs (removeNodeFuel fuel g c).1 ([] ++ (removeNodeFuel fuel g c).2)]
  simp [removeChildren]

/-- The graph a successful `removeNode` body produces at a present node:
children first, then the incident-edge scrub, then the unconditional erase. -/
theorem removeNodeFuel_succ_present (fuel : Nat) (g : Graph) (nid : Nat)
    (h : (g.nodes.any (fun n => n.id == nid)) = true) :
    (removeNodeFuel (fuel + 1) g nid).1 =
      { nodes := eraseFirstNodeById (removeChildren fuel g (memberChildIds g nid)).1.nodes nid,
        edges := (removeChildren fuel g (memberChildIds g nid)).1.edges.filter
            (fun e => !(e.fromId == nid || e.toId == nid)),
        nextId := (removeChildren fuel g (memberChildIds g nid)).1.nextId } := by
  rw [removeNodeFuel, if_pos h]
  rfl

theorem removeNodeFuel_succ_absent (fuel : Nat) (g : Graph) (nid : Nat)
    (h : (g.nodes.any (fun n => n.id == nid)) = false) :
    removeNodeFuel (fuel + 1) g nid = (g, [LogMsg.warning "Node was not found in the graph."]) := by
  rw [removeNodeFuel, if_neg (by simp [h])]

theorem eraseFirstNodeById_sublist (l : List Node) (i : Nat) :
    List.Sublist (eraseFirstNodeById l i) l := by
  induction l with
  | nil => simp [eraseFirstNodeById]
  | cons n rest ih =>
    unfold eraseFirstNodeById
    by_cases h : (n.id == i) = true
    · rw [if_pos h]
      exact List.sublist_cons_self n rest
    · rw [if_neg h]
      exact List.Sublist.cons₂ n ih

theorem removeNodeFuel_nodes_sublist :
    ∀ (fuel : Nat) (g : Graph) (nid : Nat),
      List.Sublist (removeNodeFuel fuel g nid).1.nodes g.nodes := by
  intro fuel
  induction fuel with
  | zero => intro g nid; exact List.Sublist.refl _
  | succ fuel ih =>
    have hcs : ∀ (cs : List Nat) (g : Graph),
        List.Sublist (removeChildren fuel g cs).1.nodes g.nodes := by
      intro cs
      induction cs with
      | nil => intro g; exact List.Sublist.refl _
      | cons c cs ihc =>
        intro g
        rw [removeChildren_cons]
        exact (ihc (removeNodeFuel fuel g c).1).trans (ih g c)
    intro g nid
    by_cases h : (g.nodes.any (fun n => n.id == nid)) = true
    · rw [removeNodeFuel_succ_present fuel g nid h]
      exact (eraseFirstNodeById_sublist _ nid).trans (hcs _ g)
    · rw [removeNodeFuel_succ_absent fuel g nid (by simpa using h)]

theorem removeChildren_nodes_sublist (fuel : Nat) :
    ∀ (cs : List Nat) (g : Graph), List.Sublist (removeChildren fuel g cs).1.nodes g.nodes := by
  intro cs
  induction cs with
  | nil => intro g; exact List.Sublist.refl _
  | cons c cs ihc =>
    intro g
    rw [removeChildren_cons]
    exact (ihc (removeNodeFuel fuel g c).1).trans (removeNodeFuel_nodes_sublist fuel g c)

theorem eraseFirstNodeById_id_not_mem (l : List Node) (i : Nat)
    (hu : (l.map (·.id)).Nodup) : ∀ n ∈ eraseFirstNodeById l i, n.id ≠ i := by
  induction l with
  | nil => intro n hn; simp [eraseFirstNodeById] at hn
  | cons m rest ih =>
    rw [List.map_cons, List.nodup_cons] at hu
    obtain ⟨hnotin, hurest⟩ := hu
    intro n hn
    unfold eraseFirstNodeById at hn
    by_cases h : (m.id == i) = true
    · rw [if_pos h] at hn
      have hmi : m.id = i := beq_iff_eq.mp h
      exact fun hni => hnotin (List.mem_map.mpr ⟨n, hn, by rw [hni, hmi]⟩)
    · rw [if_neg h] at hn
      rcases List.mem_cons.mp hn with rfl | hn'
      · simpa using h
      · exact ih hurest n hn'

/-! ## C8: the residual-edge check never blocks completion -/

/-- C8: at a node owned by the graph, `removeNode` always completes by erasing
the node from the owning collection: the zero-residual-incident-edges check
between the edge scrub and the erase influences only the log (the erase is
unconditional in the control flow), so afterwards no owned node carries the
removed node's id.  Unique ids state the pointer-identity reading of the
search loop. -/
theorem claim_C8_removeNode_completes (g : Graph) (nid : Nat)
    (hu : (nodeIds g).Nodup) (h : nid ∈ nodeIds g) :
    nid ∉ nodeIds (removeNode g nid).1 := by
  unfold removeNode
  have hany : (g.nodes.any (fun n => n.id == nid)) = true := (any_id_eq_true_iff g nid).mpr h
  rw [removeNodeFuel_succ_present _ g nid hany]
  intro hmem
  obtain ⟨n, hn, hni⟩ := List.mem_map.mp hmem
  have hsub : List.Sublist ((removeChildren (g.nodes.length) g (memberChildIds g nid)).1.nodes.map (·.id))
      (g.nodes.map (·.id)) :=
    (removeChildren_nodes_sublist (g.nodes.length) (memberChildIds g nid) g).map (·.id)
  have hnodup : ((removeChildren (g.nodes.length) g (memberChildIds g nid)).1.nodes.map (·.id)).Nodup :=
    hu.sublist hsub
  exact eraseFirstNodeById_id_not_mem _ nid hnodup n hn hni

/-- Witness for C8: removing the root of a two-node hierarchy. -/
theorem claim_C8_removeNode_completes_witness :
    (0 : Nat) ∉ nodeIds (removeNode
      ⟨[⟨0, NodeType.undefined, "a", none⟩, ⟨1, NodeType.undefined, "a::b", none⟩],
       [⟨2, EdgeType.member, 0, 1⟩], 3⟩ 0).1 :=
  claim_C8_removeNode_completes _ 0 (by decide) (by decide)

/-! ## C10: the unchecked signature-component read -/

/-- C10 counterexample: the claim states the dereference is safe *only* when
every node bearing the full name has a signature, and that a same-named node
without a signature makes the call dereference null.  Here node id 1 bears the
name `"f"` and has no signature component, yet the call is safe (no undefined
behavior), because only the *first* same-named node is ever consulted. -/
theorem claim_C10_counterexample :
    (∃ n ∈ ([⟨0, NodeType.other 0, "f", some "s"⟩, ⟨1, NodeType.other 0, "f", none⟩] : List Node),
        n.name = "f" ∧ n.signature = none)
    ∧ createNodeHierarchyWithDistinctSignature
        ⟨[⟨0, NodeType.other 0, "f", some "s"⟩, ⟨1, NodeType.other 0, "f", none⟩], [], 2⟩
        (NodeType.other 0) "f" "s2" ≠ none := by
  decide

/-- C10 amended: `createNodeHierarchyWithDistinctSignature` dereferences the
null signature component exactly when the *first* node bearing the full name
(the one `getNode` returns) carries no signature; whether other same-named
nodes carry one is irrelevant. -/
theorem claim_C10_null_component_iff (g : Graph) (ty : NodeType) (fullName sig : String) :
    createNodeHierarchyWithDistinctSignature g ty fullName sig = none
      ↔ ∃ m, getNode g fullName = some m ∧ m.signature = none := by
  constructor
  · intro h
    unfold createNodeHierarchyWithDistinctSignature at h
    split at h
    next node hnode =>
      split at h
      next hsig => exact ⟨node, hnode, hsig⟩
      next s hsig =>
        split at h
        · split at h <;> simp at h
        · simp at h
    next hnone =>
      split at h <;> simp at h
  · rintro ⟨m, hm, hs⟩
    unfold createNodeHierarchyWithDistinctSignature
    simp only [hm, hs]

/-! ## C3: deduplicated edge creation -/

/-- C3 counterexample: a self-loop request breaks the exact-triple contract.
The graph owns nodes `x` (id 0) and `a` (id 1) and the edge `x → a` (type tag
0).  No edge with the triple (type 0, 1, 1) exists, yet
`createEdge (type 0) 1 1` stores nothing and returns the edge `x → a` — its
lookup scans all edges *incident* to node 1 (incoming included) and matches
only on type and `to`-endpoint. -/
theorem claim_C3_counterexample :
    (∀ e ∈ ([⟨2, EdgeType.other 0, 0, 1⟩] : List Edge),
        ¬(e.type = EdgeType.other 0 ∧ e.fromId = 1 ∧ e.toId = 1))
    ∧ createEdge ⟨[⟨0, NodeType.other 0, "x", none⟩, ⟨1, NodeType.other 0, "a", none⟩],
                  [⟨2, EdgeType.other 0, 0, 1⟩], 3⟩ (EdgeType.other 0) 1 1
        = (⟨2, EdgeType.other 0, 0, 1⟩,
           ⟨[⟨0, NodeType.other 0, "x", none⟩, ⟨1, NodeType.other 0, "a", none⟩],
            [⟨2, EdgeType.other 0, 0, 1⟩], 3⟩)
    ∧ (createEdge ⟨[⟨0, NodeType.other 0, "x", none⟩, ⟨1, NodeType.other 0, "a", none⟩],
                   [⟨2, EdgeType.other 0, 0, 1⟩], 3⟩ (EdgeType.other 0) 1 1).1.fromId ≠ 1 := by
  decide

/-- C3 amended: for `from ≠ to`, `createEdge` returns the stored edge with
exactly that (type, from, to) triple when one exists and otherwise stores
exactly one new edge carrying the requested triple (for `from = to` the lookup
may instead return an incident same-type edge with a different source, storing
nothing); in every case `createEdge` preserves the invariant that no two
stored edges carry an identical (type, from, to) triple. -/
theorem claim_C3_createEdge_dedup (g : Graph) (ty : EdgeType) (fromId toId : Nat) :
    (fromId ≠ toId → ∀ e, getEdge g ty fromId toId = some e →
        e ∈ g.edges ∧ e.type = ty ∧ e.fromId = fromId ∧ e.toId = toId
        ∧ createEdge g ty fromId toId = (e, g))
    ∧ (getEdge g ty fromId toId = none →
        (∀ e ∈ g.edges, ¬(e.type = ty ∧ e.fromId = fromId ∧ e.toId = toId))
        ∧ createEdge g ty fromId toId
            = (⟨g.nextId, ty, fromId, toId⟩,
               { g with edges := g.edges ++ [⟨g.nextId, ty, fromId, toId⟩],
                        nextId := g.nextId + 1 }))
    ∧ (g.edges.Pairwise (fun a b => ¬(a.type = b.type ∧ a.fromId = b.fromId ∧ a.toId = b.toId)) →
        (createEdge g ty fromId toId).2.edges.Pairwise
          (fun a b => ¬(a.type = b.type ∧ a.fromId = b.fromId ∧ a.toId = b.toId))) := by
  have hnone : getEdge g ty fromId toId = none →
      ∀ e ∈ g.edges, ¬(e.type = ty ∧ e.fromId = fromId ∧ e.toId = toId) := by
    intro h e he
    rintro ⟨h1, h2, h3⟩
    have hmem : e ∈ incidentEdges g fromId :=
      List.mem_filter.mpr ⟨he, by simp [h2]⟩
    have := List.find?_eq_none.mp h e hmem
    simp [h1, h3] at this
  refine ⟨?_, ?_, ?_⟩
  · intro hne e h
    have hpred := List.find?_some h
    have hmem := List.mem_of_find?_eq_some h
    rw [incidentEdges, List.mem_filter] at hmem
    obtain ⟨hmemE, hinc⟩ := hmem
    simp only [Bool.and_eq_true, beq_iff_eq] at hpred
    obtain ⟨hty, hto⟩ := hpred
    simp only [Bool.or_eq_true, beq_iff_eq] at hinc
    have hfrom : e.fromId = fromId := by
      rcases hinc with h' | h'
      · exact h'
      · exact absurd (hto ▸ h') (fun hh => hne hh.symm)
    refine ⟨hmemE, hty, hfrom, hto, ?_⟩
    unfold createEdge
    rw [h]
  · intro h
    refine ⟨hnone h, ?_⟩
    unfold createEdge
    rw [h]
    rfl
  · intro hp
    cases h : getEdge g ty fromId toId with
    | some e =>
      unfold createEdge
      rw [h]
      exact hp
    | none =>
      unfold createEdge
      rw [h]
      show (g.edges ++ [(⟨g.nextId, ty, fromId, toId⟩ : Edge)]).Pairwise
        (fun a b => ¬(a.type = b.type ∧ a.fromId = b.fromId ∧ a.toId = b.toId))
      rw [List.pairwise_append]
      refine ⟨hp, List.pairwise_singleton _ _, ?_⟩
      intro a ha b hb
      rw [List.mem_singleton] at hb
      subst hb
      rintro ⟨h1, h2, h3⟩
      exact hnone h a ha ⟨h1, h2, h3⟩

/-- Witness for C3 at concrete graphs: an exact-triple hit with distinct
endpoints, a miss that stores the new edge, and invariant preservation. -/
theorem claim_C3_createEdge_dedup_witness :
    createEdge ⟨[⟨0, NodeType.other 0, "x", none⟩, ⟨1, NodeType.other 0, "a", none⟩],
                [⟨2, EdgeType.other 0, 0, 1⟩], 3⟩ (EdgeType.other 0) 0 1
      = (⟨2, EdgeType.other 0, 0, 1⟩,
         ⟨[⟨0, NodeType.other 0, "x", none⟩, ⟨1, NodeType.other 0, "a", none⟩],
          [⟨2, EdgeType.other 0, 0, 1⟩], 3⟩)
    ∧ createEdge ⟨[⟨0, NodeType.other 0, "x", none⟩, ⟨1, NodeType.other 0, "a", none⟩],
                  [⟨2, EdgeType.other 0, 0, 1⟩], 3⟩ (EdgeType.other 1) 0 1
        = (⟨3, EdgeType.other 1, 0, 1⟩,
           ⟨[⟨0, NodeType.other 0, "x", none⟩, ⟨1, NodeType.other 0, "a", none⟩],
            [⟨2, EdgeType.other 0, 0, 1⟩, ⟨3, EdgeType.other 1, 0, 1⟩], 4⟩)
    ∧ (createEdge ⟨[⟨0, NodeType.other 0, "x", none⟩, ⟨1, NodeType.other 0, "a", none⟩],
                   [⟨2, EdgeType.other 0, 0, 1⟩], 3⟩ (EdgeType.other 1) 0 1).2.edges.Pairwise
        (fun a b => ¬(a.type = b.type ∧ a.fromId = b.fromId ∧ a.toId = b.toId)) :=
  ⟨((claim_C3_createEdge_dedup _ (EdgeType.other 0) 0 1).1 (by decide)
      ⟨2, EdgeType.other 0, 0, 1⟩ (by decide)).2.2.2.2,
   ((claim_C3_createEdge_dedup _ (EdgeType.other 1) 0 1).2.1 (by decide)).2,
   (claim_C3_createEdge_dedup _ (EdgeType.other 1) 0 1).2.2 (by decide)⟩

/-! ## C6: signature-distinguished siblings -/

/-- Every id the graph hands out is below the id-generator state — true of
every graph the API can build, since ids are assigned from the counter. -/
def WellIdd (g : Graph) : Prop :=
  (∀ n ∈ g.nodes, n.id < g.nextId) ∧ (∀ e ∈ g.edges, e.fromId < g.nextId ∧ e.toId < g.nextId)

theorem list_map_self {α : Type} (l : List α) (f : α → α) (h : ∀ x ∈ l, f x = x) :
    l.map f = l := by
  induction l with
  | nil => rfl
  | cons a l ih =>
    rw [List.map_cons, h a (List.mem_cons_self a l),
        ih (fun x hx => h x (List.mem_cons_of_mem a hx))]

/-- The sibling path of `createNodeHierarchyWithDistinctSignature`: when the
first node bearing the full name carries a different signature, a fresh node
with the same full name is stored, the new signature is attached to it, and —
when the existing node has a parent — a membership edge from that parent to
the new node is created. -/
theorem insert_sibling (g : Graph) (ty : NodeType) (fullName sig : String) (m : Node) (s0 : String)
    (hw : WellIdd g)
    (hg : getNode g fullName = some m)
    (hs : m.signature = some s0)
    (hne : (s0 == sig) = false) :
    createNodeHierarchyWithDistinctSignature g ty fullName sig
      = some (some ⟨g.nextId, ty, fullName, some sig⟩,
          { nodes := g.nodes ++ [⟨g.nextId, ty, fullName, some sig⟩],
            edges := g.edges ++
              (match getParentNode g m.id with
               | some p => [⟨g.nextId + 1, EdgeType.member, p, g.nextId⟩]
               | none => []),
            nextId := g.nextId +
              (match getParentNode g m.id with
               | some _ => 2
               | none => 1) }) := by
  have hmap : ∀ x ∈ g.nodes,
      (if x.id == g.nextId then { x with signature := some sig } else x) = x := by
    intro x hx
    have hlt := hw.1 x hx
    simp only [beq_iff_eq]
    exact if_neg (by omega)
  unfold createNodeHierarchyWithDistinctSignature
  simp only [hg, hs]
  rw [if_neg (by simp [hne])]
  cases hp : getParentNode g m.id with
  | none =>
    simp only [insertNode, addComponentSignature, List.map_append]
    rw [list_map_self _ _ hmap]
    simp
  | some p =>
    have hnoedge : getEdge (⟨g.nodes ++ [⟨g.nextId, ty, fullName, none⟩],
        g.edges, g.nextId + 1⟩ : Graph) EdgeType.member p g.nextId = none := by
      apply List.find?_eq_none.mpr
      intro e he
      rw [incidentEdges, List.mem_filter] at he
      have := (hw.2 e he.1).2
      simp only [Bool.and_eq_true, beq_iff_eq, not_and]
      intro _
      omega
    simp only [insertNode, createEdge, hnoedge, insertEdge, addComponentSignature, List.map_append]
    rw [list_map_self _ _ hmap]
    simp

/-- C6 counterexample: `createNodeHierarchyWithDistinctSignature("f", sigA)`
then `("f", sigB)` build two signature-distinguished nodes (ids 0 and 1); a
third call with `("f", sigB)` finds a node with that full name and an *equal*
signature owned (id 1), yet does not return it: it compares only against the
first node named `"f"` (id 0, signature sigA) and so creates a fresh node
(id 2) instead — refuting "calling it when a node with that full name and an
equal signature exists returns that existing node". -/
theorem claim_C6_counterexample :
    createNodeHierarchyWithDistinctSignature emptyGraph (NodeType.other 0) "f" "sigA"
      = some (some ⟨0, NodeType.other 0, "f", some "sigA"⟩,
              ⟨[⟨0, NodeType.other 0, "f", some "sigA"⟩], [], 1⟩)
    ∧ createNodeHierarchyWithDistinctSignature
        ⟨[⟨0, NodeType.other 0, "f", some "sigA"⟩], [], 1⟩ (NodeType.other 0) "f" "sigB"
      = some (some ⟨1, NodeType.other 0, "f", some "sigB"⟩,
              ⟨[⟨0, NodeType.other 0, "f", some "sigA"⟩,
                ⟨1, NodeType.other 0, "f", some "sigB"⟩], [], 2⟩)
    ∧ (∃ n ∈ ([⟨0, NodeType.other 0, "f", some "sigA"⟩,
               ⟨1, NodeType.other 0, "f", some "sigB"⟩] : List Node),
          n.name = "f" ∧ n.signature = some "sigB")
    ∧ createNodeHierarchyWithDistinctSignature
        ⟨[⟨0, NodeType.other 0, "f", some "sigA"⟩,
          ⟨1, NodeType.other 0, "f", some "sigB"⟩], [], 2⟩ (NodeType.other 0) "f" "sigB"
      = some (some ⟨2, NodeType.other 0, "f", some "sigB"⟩,
              ⟨[⟨0, NodeType.other 0, "f", some "sigA"⟩,
                ⟨1, NodeType.other 0, "f", some "sigB"⟩,
                ⟨2, NodeType.other 0, "f", some "sigB"⟩], [], 3⟩)
    ∧ (2 : Nat) ∉ nodeIds ⟨[⟨0, NodeType.other 0, "f", some "sigA"⟩,
                            ⟨1, NodeType.other 0, "f", some "sigB"⟩], [], 2⟩ := by
  decide

theorem getNode_edges_irrelevant (nodes : List Node) (edges edges' : List Edge) (a a' : Nat)
    (fullName : String) :
    getNode ⟨nodes, edges, a⟩ fullName = getNode ⟨nodes, edges', a'⟩ fullName :=
  rfl

theorem getNode_append (g g' : Graph) (fullName : String) (m : Node) (L : List Node)
    (hn : g'.nodes = g.nodes ++ L) (hg : getNode g fullName = some m) :
    getNode g' fullName = some m := by
  unfold getNode findNode at *
  rw [hn, List.find?_append, hg]
  rfl

theorem getParentNode_append (g g' : Graph) (nid : Nat) (E : List Edge)
    (h : g'.edges = g.edges ++ E)
    (hE : ∀ e ∈ E, e.toId ≠ nid) :
    getParentNode g' nid = getParentNode g nid := by
  unfold getParentNode incidentEdges
  rw [h, List.filter_append, List.find?_append]
  have : (E.filter (fun e => e.fromId == nid || e.toId == nid)).find?
      (fun e => e.type == EdgeType.member && e.toId == nid) = none := by
    apply List.find?_eq_none.mpr
    intro e he
    have := hE e (List.mem_filter.mp he).1
    simp [this]
  rw [this, Option.or_none]

theorem getParentNode_none_of_high (g : Graph) (nid : Nat)
    (h : ∀ e ∈ g.edges, e.toId ≠ nid) : getParentNode g nid = none := by
  unfold getParentNode incidentEdges
  have : (g.edges.filter (fun e => e.fromId == nid || e.toId == nid)).find?
      (fun e => e.type == EdgeType.member && e.toId == nid) = none := by
    apply List.find?_eq_none.mpr
    intro e he
    have := h e (List.mem_filter.mp he).1
    simp [this]
  rw [this]
  rfl

theorem getParentNode_append_hit (g' : Graph) (nid : Nat) (pre post : List Edge) (e : Edge)
    (h : g'.edges = pre ++ e :: post)
    (hpre : ∀ x ∈ pre, x.toId ≠ nid)
    (hty : e.type = EdgeType.member) (hto : e.toId = nid) :
    getParentNode g' nid = some e.fromId := by
  unfold getParentNode incidentEdges
  rw [h, List.filter_append, List.find?_append]
  have h1 : (pre.filter (fun x => x.fromId == nid || x.toId == nid)).find?
      (fun x => x.type == EdgeType.member && x.toId == nid) = none := by
    apply List.find?_eq_none.mpr
    intro x hx
    have := hpre x (List.mem_filter.mp hx).1
    simp [this]
  rw [h1]
  have h2 : (e :: post).filter (fun x => x.fromId == nid || x.toId == nid)
      = e :: post.filter (fun x => x.fromId == nid || x.toId == nid) := by
    rw [List.filter_cons, if_pos (by simp [hto])]
  rw [h2]
  rw [List.find?_cons_of_pos _ (by simp [hty, hto])]
  rfl

theorem getParentNode_mem (g : Graph) (nid p : Nat) (h : getParentNode g nid = some p) :
    ∃ e ∈ g.edges, e.type = EdgeType.member ∧ e.toId = nid ∧ e.fromId = p := by
  unfold getParentNode at h
  cases hf : (incidentEdges g nid).find? (fun e => e.type == EdgeType.member && e.toId == nid) with
  | none => rw [hf] at h; exact Option.noConfusion h
  | some e =>
    rw [hf] at h
    have hpred := List.find?_some hf
    have hmem := List.mem_of_find?_eq_some hf
    rw [incidentEdges, List.mem_filter] at hmem
    simp only [Bool.and_eq_true, beq_iff_eq] at hpred
    exact ⟨e, hmem.1, hpred.1, hpred.2, by simpa using h⟩

/-- C6 amended: comparisons run against the *first* node bearing the full
name.  When that node carries an equal signature, it is returned (type upgrade
aside) with no new node or edge; when it carries a signature differing from
both requested ones, two calls with distinct signatures yield two distinct
fresh nodes sharing the full name and the parent, each carrying its own
signature. -/
theorem claim_C6_distinct_signature_siblings :
    (∀ (g : Graph) (ty : NodeType) (fullName sig : String) (m : Node),
        getNode g fullName = some m → m.signature = some sig →
        ∃ m' g', createNodeHierarchyWithDistinctSignature g ty fullName sig = some (some m', g')
          ∧ m'.id = m.id ∧ m'.name = m.name ∧ m'.signature = m.signature
          ∧ g'.nodes.length = g.nodes.length ∧ g'.edges = g.edges)
    ∧ (∀ (g : Graph) (ty1 ty2 : NodeType) (fullName sigA sigB : String) (m : Node) (s0 : String),
        WellIdd g → getNode g fullName = some m → m.signature = some s0 →
        s0 ≠ sigA → s0 ≠ sigB → sigA ≠ sigB →
        ∃ n1 g1 n2 g2,
          createNodeHierarchyWithDistinctSignature g ty1 fullName sigA = some (some n1, g1)
          ∧ createNodeHierarchyWithDistinctSignature g1 ty2 fullName sigB = some (some n2, g2)
          ∧ n1.id ≠ n2.id
          ∧ n1.id ∉ nodeIds g ∧ n2.id ∉ nodeIds g1
          ∧ n1.name = fullName ∧ n2.name = fullName
          ∧ n1.signature = some sigA ∧ n2.signature = some sigB
          ∧ getParentNode g2 n1.id = getParentNode g2 n2.id) := by
  constructor
  · intro g ty fullName sig m hg hsig
    unfold createNodeHierarchyWithDistinctSignature
    simp only [hg, hsig]
    rw [if_pos (by simp)]
    by_cases ht : ty ≠ NodeType.undefined
    · rw [if_pos ht]
      refine ⟨{ m with type := ty }, setNodeType g m.id ty, ?_, rfl, rfl, hsig,
              by simp [setNodeType], rfl⟩
      rw [hsig]
    · rw [if_neg ht]
      exact ⟨m, g, rfl, rfl, rfl, hsig, rfl, rfl⟩
  · intro g ty1 ty2 fullName sigA sigB m s0 hw hg hs hA hB hAB
    have hmlt : m.id < g.nextId := by
      have hmem : m ∈ g.nodes := List.mem_of_find?_eq_some
        (show g.nodes.find? (fun n => n.name == fullName) = some m from hg)
      exact hw.1 m hmem
    have hneA : (s0 == sigA) = false := by simp [hA]
    have hneB : (s0 == sigB) = false := by simp [hB]
    have h1 := insert_sibling g ty1 fullName sigA m s0 hw hg hs hneA
    cases hp : getParentNode g m.id with
    | none =>
      have h1' : createNodeHierarchyWithDistinctSignature g ty1 fullName sigA
          = some (some ⟨g.nextId, ty1, fullName, some sigA⟩,
                  ⟨g.nodes ++ [⟨g.nextId, ty1, fullName, some sigA⟩], g.edges, g.nextId + 1⟩) := by
        rw [h1, hp]
        simp
      have hw1 : WellIdd (⟨g.nodes ++ [⟨g.nextId, ty1, fullName, some sigA⟩],
          g.edges, g.nextId + 1⟩ : Graph) := by
        constructor
        · intro n hn
          rcases List.mem_append.mp hn with h | h
          · have := hw.1 n h
            show n.id < g.nextId + 1
            omega
          · rw [List.mem_singleton] at h
            subst h
            show g.nextId < g.nextId + 1
            omega
        · intro e he
          have := hw.2 e he
          exact ⟨by show e.fromId < g.nextId + 1; omega, by show e.toId < g.nextId + 1; omega⟩
      have hgn1 : getNode (⟨g.nodes ++ [⟨g.nextId, ty1, fullName, some sigA⟩],
          g.edges, g.nextId + 1⟩ : Graph) fullName = some m :=
        getNode_append g _ fullName m _ rfl hg
      have hp1 : getParentNode (⟨g.nodes ++ [⟨g.nextId, ty1, fullName, some sigA⟩],
          g.edges, g.nextId + 1⟩ : Graph) m.id = none := hp
      have h2 := insert_sibling _ ty2 fullName sigB m s0 hw1 hgn1 hs hneB
      have h2' : createNodeHierarchyWithDistinctSignature
          (⟨g.nodes ++ [⟨g.nextId, ty1, fullName, some sigA⟩], g.edges, g.nextId + 1⟩ : Graph)
          ty2 fullName sigB
          = some (some ⟨g.nextId + 1, ty2, fullName, some sigB⟩,
                  ⟨(g.nodes ++ [⟨g.nextId, ty1, fullName, some sigA⟩])
                      ++ [⟨g.nextId + 1, ty2, fullName, some sigB⟩],
                   g.edges, g.nextId + 1 + 1⟩) := by
        rw [h2, hp1]
        simp
      refine ⟨⟨g.nextId, ty1, fullName, some sigA⟩,
              ⟨g.nodes ++ [⟨g.nextId, ty1, fullName, some sigA⟩], g.edges, g.nextId + 1⟩,
              ⟨g.nextId + 1, ty2, fullName, some sigB⟩,
              ⟨(g.nodes ++ [⟨g.nextId, ty1, fullName, some sigA⟩])
                  ++ [⟨g.nextId + 1, ty2, fullName, some sigB⟩],
               g.edges, g.nextId + 1 + 1⟩,
              h1', h2', by simp, ?_, ?_, rfl, rfl, rfl, rfl, ?_⟩
      · intro hmem
        obtain ⟨n, hn, hid⟩ := List.mem_map.mp hmem
        have := hw.1 n hn
        simp only at hid
        omega
      · intro hmem
        obtain ⟨n, hn, hid⟩ := List.mem_map.mp hmem
        simp only at hid
        rcases List.mem_append.mp hn with h | h
        · have := hw.1 n h
          omega
        · rw [List.mem_singleton] at h
          subst h
          simp at hid
      · rw [getParentNode_none_of_high _ _ (fun e he => by have := (hw.2 e he).2; simp; omega),
            getParentNode_none_of_high _ _ (fun e he => by have := (hw.2 e he).2; simp; omega)]
    | some p =>
      obtain ⟨estar, hestar, _, _, hefrom⟩ := getParentNode_mem g m.id p hp
      have hplt : p < g.nextId := by
        have := hw.2 estar hestar
        omega
      have h1' : createNodeHierarchyWithDistinctSignature g ty1 fullName sigA
          = some (some ⟨g.nextId, ty1, fullName, some sigA⟩,
                  ⟨g.nodes ++ [⟨g.nextId, ty1, fullName, some sigA⟩],
                   g.edges ++ [⟨g.nextId + 1, EdgeType.member, p, g.nextId⟩], g.nextId + 2⟩) := by
        rw [h1, hp]
      have hw1 : WellIdd (⟨g.nodes ++ [⟨g.nextId, ty1, fullName, some sigA⟩],
          g.edges ++ [⟨g.nextId + 1, EdgeType.member, p, g.nextId⟩], g.nextId + 2⟩ : Graph) := by
        constructor
        · intro n hn
          rcases List.mem_append.mp hn with h | h
          · have := hw.1 n h
            show n.id < g.nextId + 2
            omega
          · rw [List.mem_singleton] at h
            subst h
            show g.nextId < g.nextId + 2
            omega
        · intro e he
          rcases List.mem_append.mp he with h | h
          · have := hw.2 e h
            exact ⟨by show e.fromId < g.nextId + 2; omega, by show e.toId < g.nextId + 2; omega⟩
          · rw [List.mem_singleton] at h
            subst h
            exact ⟨by show p < g.nextId + 2; omega, by show g.nextId < g.nextId + 2; omega⟩
      have hgn1 : getNode (⟨g.nodes ++ [⟨g.nextId, ty1, fullName, some sigA⟩],
          g.edges ++ [⟨g.nextId + 1, EdgeType.member, p, g.nextId⟩], g.nextId + 2⟩ : Graph) fullName
          = some m :=
        getNode_append g _ fullName m _ rfl hg
      have hp1 : getParentNode (⟨g.nodes ++ [⟨g.nextId, ty1, fullName, some sigA⟩],
          g.edges ++ [⟨g.nextId + 1, EdgeType.member, p, g.nextId⟩], g.nextId + 2⟩ : Graph) m.id
          = some p := by
        rw [getParentNode_append g _ m.id [⟨g.nextId + 1, EdgeType.member, p, g.nextId⟩] rfl
              (by intro e he; rw [List.mem_singleton] at he; subst he; simp; omega)]
        exact hp
      have h2 := insert_sibling _ ty2 fullName sigB m s0 hw1 hgn1 hs hneB
      have h2' : createNodeHierarchyWithDistinctSignature
          (⟨g.nodes ++ [⟨g.nextId, ty1, fullName, some sigA⟩],
            g.edges ++ [⟨g.nextId + 1, EdgeType.member, p, g.nextId⟩], g.nextId + 2⟩ : Graph)
          ty2 fullName sigB
          = some (some ⟨g.nextId + 2, ty2, fullName, some sigB⟩,
                  ⟨(g.nodes ++ [⟨g.nextId, ty1, fullName, some sigA⟩])
                      ++ [⟨g.nextId + 2, ty2, fullName, some sigB⟩],
                   (g.edges ++ [⟨g.nextId + 1, EdgeType.member, p, g.nextId⟩])
                      ++ [⟨g.nextId + 2 + 1, EdgeType.member, p, g.nextId + 2⟩],
                   g.nextId + 2 + 2⟩) := by
        rw [h2, hp1]
      refine ⟨⟨g.nextId, ty1, fullName, some sigA⟩,
              ⟨g.nodes ++ [⟨g.nextId, ty1, fullName, some sigA⟩],
               g.edges ++ [⟨g.nextId + 1, EdgeType.member, p, g.nextId⟩], g.nextId + 2⟩,
              ⟨g.nextId + 2, ty2, fullName, some sigB⟩,
              ⟨(g.nodes ++ [⟨g.nextId, ty1, fullName, some sigA⟩])
                  ++ [⟨g.nextId + 2, ty2, fullName, some sigB⟩],
               (g.edges ++ [⟨g.nextId + 1, EdgeType.member, p, g.nextId⟩])
                  ++ [⟨g.nextId + 2 + 1, EdgeType.member, p, g.nextId + 2⟩],
               g.nextId + 2 + 2⟩,
              h1', h2', by simp, ?_, ?_, rfl, rfl, rfl, rfl, ?_⟩
      · intro hmem
        obtain ⟨n, hn, hid⟩ := List.mem_map.mp hmem
        have := hw.1 n hn
        simp only at hid
        omega
      · intro hmem
        obtain ⟨n, hn, hid⟩ := List.mem_map.mp hmem
        simp only at hid
        rcases List.mem_append.mp hn with h | h
        · have := hw.1 n h
          omega
        · rw [List.mem_singleton] at h
          subst h
          simp at hid
      · rw [getParentNode_append_hit _ _ g.edges
              [⟨g.nextId + 2 + 1, EdgeType.member, p, g.nextId + 2⟩]
              ⟨g.nextId + 1, EdgeType.member, p, g.nextId⟩ (by simp)
              (fun x hx => by
                have := (hw.2 x hx).2
                show x.toId ≠ g.nextId
                omega) rfl rfl,
            getParentNode_append_hit _ _
              (g.edges ++ [⟨g.nextId + 1, EdgeType.member, p, g.nextId⟩]) []
              ⟨g.nextId + 2 + 1, EdgeType.member, p, g.nextId + 2⟩ (by simp)
              (by
                intro x hx
                show x.toId ≠ g.nextId + 2
                rcases List.mem_append.mp hx with h | h
                · have := (hw.2 x h).2
                  omega
                · rw [List.mem_singleton] at h
                  subst h
                  simp) rfl rfl]

/-- Witness for C6 at a concrete graph owning one signed node named `"f"`. -/
theorem claim_C6_distinct_signature_siblings_witness :
    (∃ m' g', createNodeHierarchyWithDistinctSignature
        ⟨[⟨0, NodeType.other 0, "f", some "s0"⟩], [], 1⟩ (NodeType.other 1) "f" "s0"
          = some (some m', g')
        ∧ m'.id = (⟨0, NodeType.other 0, "f", some "s0"⟩ : Node).id
        ∧ m'.name = (⟨0, NodeType.other 0, "f", some "s0"⟩ : Node).name
        ∧ m'.signature = (⟨0, NodeType.other 0, "f", some "s0"⟩ : Node).signature
        ∧ g'.nodes.length = ([⟨0, NodeType.other 0, "f", some "s0"⟩] : List Node).length
        ∧ g'.edges = [])
    ∧ (∃ n1 g1 n2 g2,
        createNodeHierarchyWithDistinctSignature
          ⟨[⟨0, NodeType.other 0, "f", some "s0"⟩], [], 1⟩ (NodeType.other 1) "f" "a"
            = some (some n1, g1)
        ∧ createNodeHierarchyWithDistinctSignature g1 (NodeType.other 2) "f" "b"
            = some (some n2, g2)
        ∧ n1.id ≠ n2.id
        ∧ n1.id ∉ nodeIds ⟨[⟨0, NodeType.other 0, "f", some "s0"⟩], [], 1⟩
        ∧ n2.id ∉ nodeIds g1
        ∧ n1.name = "f" ∧ n2.name = "f"
        ∧ n1.signature = some "a" ∧ n2.signature = some "b"
        ∧ getParentNode g2 n1.id = getParentNode g2 n2.id) :=
  ⟨claim_C6_distinct_signature_siblings.1
      ⟨[⟨0, NodeType.other 0, "f", some "s0"⟩], [], 1⟩ (NodeType.other 1) "f" "s0"
      ⟨0, NodeType.other 0, "f", some "s0"⟩ (by decide) rfl,
   claim_C6_distinct_signature_siblings.2
      ⟨[⟨0, NodeType.other 0, "f", some "s0"⟩], [], 1⟩ (NodeType.other 1) (NodeType.other 2)
      "f" "a" "b" ⟨0, NodeType.other 0, "f", some "s0"⟩ "s0"
      ⟨by decide, by decide⟩ (by decide) rfl (by decide) (by decide) (by decide)⟩

/-! ## C1: cascading removal — reachability machinery -/

/-- The graph owns a membership edge from `a` to `b`. -/
def MemEdge (g : Graph) (a b : Nat) : Prop :=
  ∃ e ∈ g.edges, e.type = EdgeType.member ∧ e.fromId = a ∧ e.toId = b

/-- `b` is reachable from `a` through outgoing membership edges (the node `a`
itself counts as reachable). -/
inductive ReachM (g : Graph) : Nat → Nat → Prop where
  | refl (a : Nat) : ReachM g a a
  | step {a b c : Nat} : ReachM g a b → MemEdge g b c → ReachM g a c

/-- Node ids are pairwise distinct (every reachable graph state satisfies
this: ids come from the fresh counter, and plain copies deduplicate by id). -/
def UniqueNodeIds (g : Graph) : Prop :=
  (nodeIds g).Nodup

/-- Every edge endpoint is the id of an owned node. -/
def EdgesClosed (g : Graph) : Prop :=
  ∀ e ∈ g.edges, e.fromId ∈ nodeIds g ∧ e.toId ∈ nodeIds g

/-- The membership relation has no cycle (equivalently, no membership edge
closes a membership path); the C++ recursion terminates exactly then. -/
def MemAcyclic (g : Graph) : Prop :=
  ∀ e ∈ g.edges, e.type = EdgeType.member → ¬ ReachM g e.toId e.fromId

theorem reachM_trans {g : Graph} {a b c : Nat} (h1 : ReachM g a b) (h2 : ReachM g b c) :
    ReachM g a c := by
  induction h2 with
  | refl => exact h1
  | step _ e ih => exact ReachM.step ih e

theorem reachM_mono {g g' : Graph} (hsub : ∀ e ∈ g'.edges, e ∈ g.edges) {a b : Nat}
    (h : ReachM g' a b) : ReachM g a b := by
  induction h with
  | refl => exact ReachM.refl _
  | step _ e ih =>
    obtain ⟨ed, hed, h1, h2, h3⟩ := e
    exact ReachM.step ih ⟨ed, hsub ed hed, h1, h2, h3⟩

theorem reachM_head {g : Graph} {a c : Nat} (h : ReachM g a c) :
    c = a ∨ ∃ b, MemEdge g a b ∧ ReachM g b c := by
  induction h with
  | refl => exact Or.inl rfl
  | step _ e ih =>
    rcases ih with rfl | ⟨b', hmb', hr'⟩
    · exact Or.inr ⟨_, e, ReachM.refl _⟩
    · exact Or.inr ⟨b', hmb', ReachM.step hr' e⟩

theorem reachM_absent {g : Graph} (hc : EdgesClosed g) {nid : Nat} (hn : nid ∉ nodeIds g)
    {m : Nat} (h : ReachM g nid m) : m = nid := by
  induction h with
  | refl => rfl
  | step _ e ih =>
    subst ih
    obtain ⟨ed, hed, _, hfrom, _⟩ := e
    exact absurd (hfrom ▸ (hc ed hed).1) hn

/-- Restricting the graph to edges avoiding a successor-closed set `R` leaves
reachability from outside `R` intact on targets outside `R`, and strands every
source inside `R`. -/
theorem reachM_filter (g g' : Graph) (R : Nat → Prop)
    (hRcl : ∀ a b, R a → MemEdge g a b → R b)
    (hedges : ∀ e, e ∈ g'.edges ↔ (e ∈ g.edges ∧ ¬ R e.fromId ∧ ¬ R e.toId)) :
    (∀ a y, ¬ R a → (ReachM g' a y ↔ (ReachM g a y ∧ ¬ R y)))
    ∧ (∀ a y, R a → (ReachM g' a y ↔ y = a)) := by
  constructor
  · intro a y ha
    constructor
    · intro h
      induction h with
      | refl => exact ⟨ReachM.refl a, ha⟩
      | step _ e ih =>
        obtain ⟨ed, hed, h1, h2, h3⟩ := e
        obtain ⟨hmem, _, hRt⟩ := (hedges ed).mp hed
        exact ⟨ReachM.step ih.1 ⟨ed, hmem, h1, h2, h3⟩, h3 ▸ hRt⟩
    · rintro ⟨hr, hy⟩
      revert hy
      induction hr with
      | refl => intro _; exact ReachM.refl _
      | @step b' c' _ e ih =>
        intro hy
        have hb' : ¬ R b' := fun hRb => hy (hRcl b' c' hRb e)
        obtain ⟨ed, hed, h1, h2, h3⟩ := e
        exact ReachM.step (ih hb') ⟨ed, (hedges ed).mpr ⟨hed, h2 ▸ hb', h3 ▸ hy⟩, h1, h2, h3⟩
  · intro a y ha
    constructor
    · intro h
      induction h with
      | refl => rfl
      | step _ e ih =>
        subst ih
        obtain ⟨ed, hed, _, hfrom, _⟩ := e
        exact absurd ha (hfrom ▸ ((hedges ed).mp hed).2.1)
    · rintro rfl
      exact ReachM.refl _

theorem mem_memberChildIds (g : Graph) (nid c : Nat) :
    c ∈ memberChildIds g nid ↔ ∃ e ∈ g.edges, e.type = EdgeType.member ∧ e.fromId = nid ∧ e.toId = c := by
  unfold memberChildIds incidentEdges
  rw [List.filter_filter]
  constructor
  · intro h
    obtain ⟨e, he, rfl⟩ := List.mem_map.mp h
    rw [List.mem_filter] at he
    obtain ⟨hmem, hpred⟩ := he
    simp only [Bool.and_eq_true, Bool.or_eq_true, beq_iff_eq] at hpred
    exact ⟨e, hmem, hpred.1.1, hpred.1.2, rfl⟩
  · rintro ⟨e, he, hty, hfrom, rfl⟩
    exact List.mem_map.mpr ⟨e, List.mem_filter.mpr ⟨he, by simp [hty, hfrom]⟩, rfl⟩

theorem memEdge_of_child {g : Graph} {nid c : Nat} (h : c ∈ memberChildIds g nid) :
    MemEdge g nid c :=
  (mem_memberChildIds g nid c).mp h

theorem length_filter_le_of_imp {α : Type} (l : List α) (p q : α → Bool)
    (h : ∀ x ∈ l, p x = true → q x = true) :
    (l.filter p).length ≤ (l.filter q).length := by
  induction l with
  | nil => simp
  | cons a l ih =>
    have ih' := ih (fun x hx => h x (List.mem_cons_of_mem a hx))
    by_cases hp : p a = true
    · rw [List.filter_cons_of_pos hp, List.filter_cons_of_pos (h a (List.mem_cons_self a l) hp)]
      simpa using ih'
    · rw [List.filter_cons_of_neg (by simpa using hp)]
      by_cases hq : q a = true
      · rw [List.filter_cons_of_pos hq]
        exact Nat.le_succ_of_le ih'
      · rw [List.filter_cons_of_neg (by simpa using hq)]
        exact ih'

theorem length_filter_lt_of_witness {α : Type} (l : List α) (p q : α → Bool)
    (h : ∀ x ∈ l, p x = true → q x = true)
    (x0 : α) (hx0 : x0 ∈ l) (hq0 : q x0 = true) (hp0 : p x0 = false) :
    (l.filter p).length < (l.filter q).length := by
  induction l with
  | nil => simp at hx0
  | cons a l ih =>
    have himp : ∀ x ∈ l, p x = true → q x = true := fun x hx => h x (List.mem_cons_of_mem a hx)
    rcases List.mem_cons.mp hx0 with rfl | hx0'
    · rw [List.filter_cons_of_neg (by simp [hp0]), List.filter_cons_of_pos hq0]
      exact Nat.lt_succ_of_le (length_filter_le_of_imp l p q himp)
    · have ihl := ih himp hx0'
      by_cases hp : p a = true
      · rw [List.filter_cons_of_pos hp, List.filter_cons_of_pos (h a (List.mem_cons_self a l) hp)]
        simpa using ihl
      · rw [List.filter_cons_of_neg (by simpa using hp)]
        by_cases hq : q a = true
        · rw [List.filter_cons_of_pos hq]
          exact Nat.lt_succ_of_lt ihl
        · rw [List.filter_cons_of_neg (by simpa using hq)]
          exact ihl

theorem eraseFirstNodeById_eq_filter (l : List Node) (i : Nat)
    (hu : (l.map (·.id)).Nodup) :
    eraseFirstNodeById l i = l.filter (fun n => !(n.id == i)) := by
  induction l with
  | nil => rfl
  | cons a l ih =>
    rw [List.map_cons, List.nodup_cons] at hu
    unfold eraseFirstNodeById
    by_cases h : (a.id == i) = true
    · rw [if_pos h, List.filter_cons_of_neg (by simp [h])]
      symm
      apply List.filter_eq_self.mpr
      intro x hx
      have hxa : x.id ≠ a.id := fun he => hu.1 (List.mem_map.mpr ⟨x, hx, he⟩)
      have hai : a.id = i := beq_iff_eq.mp h
      simp only [Bool.not_eq_true']
      rw [beq_eq_false_iff_ne]
      omega
    · rw [if_neg h, List.filter_cons_of_pos (by simp [Bool.not_eq_true']; simpa using h)]
      rw [ih hu.2]

/-- The inductive statement for `removeNodeFuel` at a given fuel: at any graph
satisfying the reachable-state invariants, removal keeps exactly the nodes not
membership-reachable from the target and exactly the edges with both endpoints
kept. -/
def RemoveNodeSpec (fuel : Nat) : Prop :=
  ∀ (g : Graph) (nid : Nat) (pK : Nat → Bool),
    UniqueNodeIds g → EdgesClosed g → MemAcyclic g →
    (∀ m ∈ nodeIds g, (pK m = true ↔ ¬ ReachM g nid m)) →
    (g.nodes.filter (fun n => !(pK n.id))).length < fuel →
    (removeNodeFuel fuel g nid).1.nodes = g.nodes.filter (fun n => pK n.id)
    ∧ (removeNodeFuel fuel g nid).1.edges = g.edges.filter (fun e => pK e.fromId && pK e.toId)
    ∧ (removeNodeFuel fuel g nid).1.nextId = g.nextId

/-- The companion statement for the child-removal fold. -/
def RemoveChildrenSpec (fuel : Nat) : Prop :=
  ∀ (g : Graph) (cs : List Nat) (pK : Nat → Bool),
    UniqueNodeIds g → EdgesClosed g → MemAcyclic g →
    (∀ m ∈ nodeIds g, (pK m = true ↔ ¬ ∃ c ∈ cs, ReachM g c m)) →
    (g.nodes.filter (fun n => !(pK n.id))).length < fuel →
    (removeChildren fuel g cs).1.nodes = g.nodes.filter (fun n => pK n.id)
    ∧ (removeChildren fuel g cs).1.edges = g.edges.filter (fun e => pK e.fromId && pK e.toId)
    ∧ (removeChildren fuel g cs).1.nextId = g.nextId

theorem children_of_main (fuel : Nat) (hm : RemoveNodeSpec fuel) : RemoveChildrenSpec fuel := by
  intro g cs
  induction cs generalizing g with
  | nil =>
    intro pK hu hc ha hpK _
    rw [removeChildren_nil]
    have hall : ∀ m ∈ nodeIds g, pK m = true := by
      intro m hmem
      exact (hpK m hmem).mpr (by rintro ⟨c, hc', _⟩; exact absurd hc' (List.not_mem_nil c))
    refine ⟨?_, ?_, rfl⟩
    · exact (List.filter_eq_self.mpr (fun n hn => hall n.id (List.mem_map.mpr ⟨n, hn, rfl⟩))).symm
    · refine (List.filter_eq_self.mpr (fun e he => ?_)).symm
      obtain ⟨hf, ht⟩ := hc e he
      rw [hall e.fromId hf, hall e.toId ht]
      rfl
  | cons c cs ih =>
    intro pK hu hc ha hpK hcnt
    have hpc : ∀ m, (fun m => @decide (¬ ReachM g c m) (Classical.propDecidable _)) m = true
        ↔ ¬ ReachM g c m := by
      intro m
      exact @decide_eq_true_iff _ (Classical.propDecidable _)
    set pc : Nat → Bool := fun m => @decide (¬ ReachM g c m) (Classical.propDecidable _) with hpc_def
    -- the head child's own removal
    have hcnt_c : (g.nodes.filter (fun n => !(pc n.id))).length < fuel := by
      refine Nat.lt_of_le_of_lt (length_filter_le_of_imp _ _ _ ?_) hcnt
      intro x hx hpx
      rw [Bool.not_eq_true'] at hpx ⊢
      have hreach : ReachM g c x.id := by
        by_contra hnr
        rw [← hpc x.id] at hnr
        simp [hpx] at hnr
      have hmem : x.id ∈ nodeIds g := List.mem_map.mpr ⟨x, hx, rfl⟩
      by_contra hne
      have : pK x.id = true := by
        cases hb : pK x.id
        · exact absurd hb hne
        · rfl
      exact (hpK x.id hmem).mp this ⟨c, List.mem_cons_self c cs, hreach⟩
    have hpc_scoped : ∀ m ∈ nodeIds g, (pc m = true ↔ ¬ ReachM g c m) := fun m _ => hpc m
    obtain ⟨hn1, he1, hx1⟩ := hm g c pc hu hc ha hpc_scoped hcnt_c
    rw [removeChildren_cons]
    -- the graph after removing the head child
    have hg1nodes : (removeNodeFuel fuel g c).1.nodes = g.nodes.filter (fun n => pc n.id) := hn1
    have hg1edges : (removeNodeFuel fuel g c).1.edges
        = g.edges.filter (fun e => pc e.fromId && pc e.toId) := he1
    -- invariants carry over
    have hu1 : UniqueNodeIds (removeNodeFuel fuel g c).1 := by
      unfold UniqueNodeIds nodeIds
      rw [hg1nodes]
      exact hu.sublist ((List.filter_sublist g.nodes).map (·.id))
    have hedges_iff : ∀ e, e ∈ (removeNodeFuel fuel g c).1.edges
        ↔ (e ∈ g.edges ∧ ¬ ReachM g c e.fromId ∧ ¬ ReachM g c e.toId) := by
      intro e
      rw [hg1edges, List.mem_filter]
      constructor
      · rintro ⟨hmem, hpred⟩
        rw [Bool.and_eq_true] at hpred
        exact ⟨hmem, (hpc _).mp hpred.1, (hpc _).mp hpred.2⟩
      · rintro ⟨hmem, h1, h2⟩
        exact ⟨hmem, by rw [Bool.and_eq_true]; exact ⟨(hpc _).mpr h1, (hpc _).mpr h2⟩⟩
    have hsub1 : ∀ e ∈ (removeNodeFuel fuel g c).1.edges, e ∈ g.edges :=
      fun e he => ((hedges_iff e).mp he).1
    have hnid1 : ∀ m, m ∈ nodeIds (removeNodeFuel fuel g c).1
        ↔ (m ∈ nodeIds g ∧ ¬ ReachM g c m) := by
      intro m
      unfold nodeIds
      rw [hg1nodes]
      constructor
      · intro hmem
        obtain ⟨n, hn, rfl⟩ := List.mem_map.mp hmem
        rw [List.mem_filter] at hn
        exact ⟨List.mem_map.mpr ⟨n, hn.1, rfl⟩, (hpc _).mp hn.2⟩
      · rintro ⟨hmem, hnr⟩
        obtain ⟨n, hn, rfl⟩ := List.mem_map.mp hmem
        exact List.mem_map.mpr ⟨n, List.mem_filter.mpr ⟨hn, (hpc _).mpr hnr⟩, rfl⟩
    have hc1 : EdgesClosed (removeNodeFuel fuel g c).1 := by
      intro e he
      obtain ⟨hmem, h1, h2⟩ := (hedges_iff e).mp he
      obtain ⟨hf, ht⟩ := hc e hmem
      exact ⟨(hnid1 _).mpr ⟨hf, h1⟩, (hnid1 _).mpr ⟨ht, h2⟩⟩
    have ha1 : MemAcyclic (removeNodeFuel fuel g c).1 := by
      intro e he hty hr
      exact ha e (hsub1 e he) hty (reachM_mono hsub1 hr)
    -- reachability in the shrunken graph
    have hfilter := reachM_filter g (removeNodeFuel fuel g c).1 (ReachM g c)
      (fun a b hRa hab => ReachM.step hRa hab) hedges_iff
    -- the keep-predicate transfers to the shrunken graph
    have hpK1 : ∀ m ∈ nodeIds (removeNodeFuel fuel g c).1,
        (pK m = true ↔ ¬ ∃ c' ∈ cs, ReachM (removeNodeFuel fuel g c).1 c' m) := by
      intro m hmem
      obtain ⟨hmemg, hnRm⟩ := (hnid1 m).mp hmem
      rw [hpK m hmemg]
      constructor
      · rintro hno ⟨c', hc', hr'⟩
        by_cases hRc' : ReachM g c c'
        · have := ((hfilter.2 c' m) hRc').mp hr'
          exact hnRm (this ▸ hRc')
        · have := ((hfilter.1 c' m) hRc').mp hr'
          exact hno ⟨c', List.mem_cons_of_mem c hc', this.1⟩
      · rintro hno ⟨c'', hc'', hr''⟩
        rcases List.mem_cons.mp hc'' with rfl | hc'
        · exact hnRm hr''
        · by_cases hRc' : ReachM g c c''
          · exact hnRm (reachM_trans hRc' hr'')
          · exact hno ⟨c'', hc', ((hfilter.1 c'' m) hRc').mpr ⟨hr'', hnRm⟩⟩
    -- the count still fits
    have hcnt1 : ((removeNodeFuel fuel g c).1.nodes.filter (fun n => !(pK n.id))).length < fuel := by
      rw [hg1nodes]
      refine Nat.lt_of_le_of_lt (List.Sublist.length_le ?_) hcnt
      exact List.Sublist.filter _ (List.filter_sublist g.nodes)
    obtain ⟨hn2, he2, hx2⟩ := ih (removeNodeFuel fuel g c).1 pK hu1 hc1 ha1 hpK1 hcnt1
    refine ⟨?_, ?_, ?_⟩
    · show (removeChildren fuel (removeNodeFuel fuel g c).1 cs).1.nodes = _
      rw [hn2, hg1nodes, List.filter_filter]
      apply List.filter_congr
      intro n hn
      cases hpk : pK n.id
      · simp
      · have hmem : n.id ∈ nodeIds g := List.mem_map.mpr ⟨n, hn, rfl⟩
        have hno := (hpK n.id hmem).mp hpk
        have : pc n.id = true :=
          (hpc _).mpr (fun hr => hno ⟨c, List.mem_cons_self c cs, hr⟩)
        rw [this]
        rfl
    · show (removeChildren fuel (removeNodeFuel fuel g c).1 cs).1.edges = _
      rw [he2, hg1edges, List.filter_filter]
      apply List.filter_congr
      intro e he
      obtain ⟨hf, ht⟩ := hc e he
      cases hpkf : pK e.fromId
      · simp
      · cases hpkt : pK e.toId
        · simp
        · have hnof := (hpK e.fromId hf).mp hpkf
          have hnot := (hpK e.toId ht).mp hpkt
          have h1 : pc e.fromId = true :=
            (hpc _).mpr (fun hr => hnof ⟨c, List.mem_cons_self c cs, hr⟩)
          have h2 : pc e.toId = true :=
            (hpc _).mpr (fun hr => hnot ⟨c, List.mem_cons_self c cs, hr⟩)
          rw [h1, h2]
          rfl
    · show (removeChildren fuel (removeNodeFuel fuel g c).1 cs).1.nextId = _
      rw [hx2, hx1]

theorem removeNodeFuel_spec_all : ∀ fuel, RemoveNodeSpec fuel := by
  intro fuel
  induction fuel with
  | zero =>
    intro g nid pK _ _ _ _ hcnt
    exact absurd hcnt (Nat.not_lt_zero _)
  | succ f ih =>
    have hch := children_of_main f ih
    intro g nid pK hu hc ha hpK hcnt
    by_cases hany : (g.nodes.any (fun n => n.id == nid)) = true
    · have hnidmem : nid ∈ nodeIds g := (any_id_eq_true_iff g nid).mp hany
      have hchar : ∀ m, ReachM g nid m ↔ (m = nid ∨ ∃ c ∈ memberChildIds g nid, ReachM g c m) := by
        intro m
        constructor
        · intro h
          rcases reachM_head h with rfl | ⟨b, hmb, hr⟩
          · exact Or.inl rfl
          · exact Or.inr ⟨b, (mem_memberChildIds g nid b).mpr hmb, hr⟩
        · rintro (rfl | ⟨c', hc', hr⟩)
          · exact ReachM.refl _
          · exact reachM_trans (ReachM.step (ReachM.refl nid) (memEdge_of_child hc')) hr
      have hpU : ∀ m, (fun m => @decide (¬ ∃ c ∈ memberChildIds g nid, ReachM g c m)
          (Classical.propDecidable _)) m = true
          ↔ ¬ ∃ c ∈ memberChildIds g nid, ReachM g c m :=
        fun m => @decide_eq_true_iff _ (Classical.propDecidable _)
      set pU : Nat → Bool :=
        fun m => @decide (¬ ∃ c ∈ memberChildIds g nid, ReachM g c m)
          (Classical.propDecidable _) with hpU_def
      have hacy_nid : ∀ c' ∈ memberChildIds g nid, ¬ ReachM g c' nid := by
        intro c' hc' hr
        obtain ⟨e, he, hty, hfrom, hto⟩ := memEdge_of_child hc'
        exact ha e he hty (by rw [hto, hfrom]; exact hr)
      have hkey : ∀ m ∈ nodeIds g, pK m = (!(m == nid) && pU m) := by
        intro m hmem
        cases hpk : pK m with
        | true =>
          have hno := (hpK m hmem).mp hpk
          have h1 : (m == nid) = false := by
            rw [beq_eq_false_iff_ne]
            rintro rfl
            exact hno (ReachM.refl m)
          have h2 : pU m = true :=
            (hpU m).mpr (fun ⟨c', hc', hr⟩ => hno ((hchar m).mpr (Or.inr ⟨c', hc', hr⟩)))
          rw [h1, h2]
          rfl
        | false =>
          have hre : ReachM g nid m := by
            by_contra hnr
            exact absurd ((hpK m hmem).mpr hnr) (by simp [hpk])
          rcases (hchar m).mp hre with rfl | ⟨c', hc', hr⟩
          · rw [beq_self_eq_true]
            rfl
          · have hfalse : pU m = false := by
              cases hb : pU m with
              | false => rfl
              | true => exact absurd ⟨c', hc', hr⟩ ((hpU m).mp hb)
            rw [hfalse, Bool.and_false]
      obtain ⟨n0, hn0mem, hn0id⟩ := List.mem_map.mp hnidmem
      have himp : ∀ x ∈ g.nodes, (!(pU x.id)) = true → (!(pK x.id)) = true := by
        intro x hx hpx
        rw [Bool.not_eq_true'] at hpx ⊢
        have hex : ∃ c ∈ memberChildIds g nid, ReachM g c x.id := by
          by_contra hno
          exact absurd ((hpU _).mpr hno) (by simp [hpx])
        have hre : ReachM g nid x.id := (hchar _).mpr (Or.inr hex)
        cases hb : pK x.id with
        | false => rfl
        | true => exact absurd hre ((hpK x.id (List.mem_map.mpr ⟨x, hx, rfl⟩)).mp hb)
      have hq0 : (!(pK n0.id)) = true := by
        rw [Bool.not_eq_true']
        cases hb : pK n0.id with
        | false => rfl
        | true =>
          have hre : ReachM g nid n0.id := by
            rw [hn0id]
            exact ReachM.refl nid
          exact absurd hre ((hpK n0.id (List.mem_map.mpr ⟨n0, hn0mem, rfl⟩)).mp hb)
      have hp0 : (!(pU n0.id)) = false := by
        have htrue : pU n0.id = true := (hpU _).mpr (by
          rintro ⟨c', hc', hr⟩
          refine hacy_nid c' hc' ?_
          rw [← hn0id]
          exact hr)
        rw [htrue]
        rfl
      have hcnt_children : (g.nodes.filter (fun n => !(pU n.id))).length < f := by
        have hlt := length_filter_lt_of_witness g.nodes (fun n => !(pU n.id))
          (fun n => !(pK n.id)) himp n0 hn0mem hq0 hp0
        omega
      obtain ⟨hn1, he1, hx1⟩ :=
        hch g (memberChildIds g nid) pU hu hc ha (fun m _ => hpU m) hcnt_children
      have hnodup1 : (((removeChildren f g (memberChildIds g nid)).1.nodes).map (·.id)).Nodup := by
        rw [hn1]
        exact hu.sublist ((List.filter_sublist g.nodes).map (·.id))
      refine ⟨?_, ?_, ?_⟩
      · rw [removeNodeFuel_succ_present f g nid hany]
        show eraseFirstNodeById (removeChildren f g (memberChildIds g nid)).1.nodes nid = _
        rw [eraseFirstNodeById_eq_filter _ nid hnodup1, hn1, List.filter_filter]
        apply List.filter_congr
        intro n hn
        rw [hkey n.id (List.mem_map.mpr ⟨n, hn, rfl⟩)]
      · rw [removeNodeFuel_succ_present f g nid hany]
        show (removeChildren f g (memberChildIds g nid)).1.edges.filter
            (fun e => !(e.fromId == nid || e.toId == nid)) = _
        rw [he1, List.filter_filter]
        apply List.filter_congr
        intro e he
        obtain ⟨hf', ht'⟩ := hc e he
        rw [hkey e.fromId hf', hkey e.toId ht']
        cases h1 : (e.fromId == nid) <;> cases h2 : (e.toId == nid)
          <;> cases h3 : pU e.fromId <;> cases h4 : pU e.toId <;> rfl
      · rw [removeNodeFuel_succ_present f g nid hany]
        show (removeChildren f g (memberChildIds g nid)).1.nextId = _
        exact hx1
    · have hany' : (g.nodes.any (fun n => n.id == nid)) = false := by
        cases hb : (g.nodes.any fun n => n.id == nid) with
        | false => rfl
        | true => exact absurd hb hany
      rw [removeNodeFuel_succ_absent f g nid hany']
      have hnid : nid ∉ nodeIds g := fun hmem => hany ((any_id_eq_true_iff g nid).mpr hmem)
      have hall : ∀ m ∈ nodeIds g, pK m = true := by
        intro m hmem
        refine (hpK m hmem).mpr (fun hre => ?_)
        have heq := reachM_absent hc hnid hre
        exact hnid (heq ▸ hmem)
      refine ⟨?_, ?_, rfl⟩
      · exact (List.filter_eq_self.mpr (fun n hn => hall n.id (List.mem_map.mpr ⟨n, hn, rfl⟩))).symm
      · refine (List.filter_eq_self.mpr (fun e he => ?_)).symm
        obtain ⟨hf', ht'⟩ := hc e he
        rw [hall e.fromId hf', hall e.toId ht']
        rfl

theorem length_eq_one_of_all_eq (l : List Node) (i : Nat)
    (hnd : (l.map (·.id)).Nodup) (hall : ∀ x ∈ l, x.id = i) (hne : l ≠ []) :
    l.length = 1 := by
  match l with
  | [] => exact absurd rfl hne
  | [a] => rfl
  | a :: b :: t =>
    exfalso
    rw [List.map_cons, List.map_cons, List.nodup_cons] at hnd
    apply hnd.1
    rw [hall a (List.mem_cons_self a _), ← hall b (List.mem_cons_of_mem a (List.mem_cons_self b t))]
    exact List.mem_cons_self b.id _

/-- C1: over any graph satisfying the reachable-state invariants (pairwise
distinct node ids, edge endpoints owned, acyclic membership relation),
removing an owned node removes exactly the nodes membership-reachable from it
— its N descendants plus itself, N+1 nodes in all — and afterwards no edge in
the edge collection references any removed node.  `pKeep` is any Boolean
characterization of the node ids *not* membership-reachable from the target
(so `!pKeep` marks the removed subtree). -/
theorem claim_C1_removeNode_subtree (g : Graph) (nid : Nat) (pKeep : Nat → Bool)
    (hu : UniqueNodeIds g) (hc : EdgesClosed g) (ha : MemAcyclic g)
    (hmem : nid ∈ nodeIds g)
    (hp : ∀ m ∈ nodeIds g, (pKeep m = true ↔ ¬ ReachM g nid m)) :
    (removeNode g nid).1.nodes = g.nodes.filter (fun n => pKeep n.id)
    ∧ (removeNode g nid).1.edges = g.edges.filter (fun e => pKeep e.fromId && pKeep e.toId)
    ∧ (removeNode g nid).1.nodes.length + (g.nodes.filter (fun n => !(pKeep n.id))).length
        = g.nodes.length
    ∧ (g.nodes.filter (fun n => !(pKeep n.id))).length
        = (g.nodes.filter (fun n => !(pKeep n.id) && !(n.id == nid))).length + 1
    ∧ (∀ e ∈ (removeNode g nid).1.edges, ∀ m ∈ nodeIds g, pKeep m = false →
        e.fromId ≠ m ∧ e.toId ≠ m) := by
  have hcnt : (g.nodes.filter (fun n => !(pKeep n.id))).length < g.nodes.length + 1 :=
    Nat.lt_succ_of_le (List.length_filter_le _ _)
  obtain ⟨hn, he, _⟩ :=
    removeNodeFuel_spec_all (g.nodes.length + 1) g nid pKeep hu hc ha hp hcnt
  have hnn : (removeNode g nid).1.nodes = g.nodes.filter (fun n => pKeep n.id) := hn
  have hee : (removeNode g nid).1.edges
      = g.edges.filter (fun e => pKeep e.fromId && pKeep e.toId) := he
  obtain ⟨n0, hn0mem, hn0id⟩ := List.mem_map.mp hmem
  have hkeep0 : pKeep n0.id = false := by
    cases hb : pKeep n0.id with
    | false => rfl
    | true =>
      have hre : ReachM g nid n0.id := by
        rw [hn0id]
        exact ReachM.refl nid
      exact absurd hre ((hp n0.id (List.mem_map.mpr ⟨n0, hn0mem, rfl⟩)).mp hb)
  refine ⟨hnn, hee, ?_, ?_, ?_⟩
  · rw [hnn]
    exact (List.length_eq_length_filter_add (fun (n : Node) => pKeep n.id)).symm
  · have hpart :=
      @List.length_eq_length_filter_add _ (g.nodes.filter (fun n => !(pKeep n.id)))
        (fun n => n.id == nid)
    have e2 : ((g.nodes.filter (fun n => !(pKeep n.id))).filter
          (fun n => !(n.id == nid))).length
        = (g.nodes.filter (fun n => !(pKeep n.id) && !(n.id == nid))).length := by
      rw [List.filter_filter]
      apply congrArg List.length
      apply List.filter_congr
      intro n _
      cases h1 : (n.id == nid) <;> cases h2 : pKeep n.id <;> rfl
    have e1 : ((g.nodes.filter (fun n => !(pKeep n.id))).filter
          (fun n => n.id == nid)).length = 1 := by
      apply length_eq_one_of_all_eq _ nid
      · have hsub : List.Sublist
            ((((g.nodes.filter (fun n => !(pKeep n.id))).filter
                (fun n => n.id == nid))).map (·.id)) (nodeIds g) := by
          unfold nodeIds
          exact ((List.filter_sublist _).trans (List.filter_sublist _)).map _
        exact hu.sublist hsub
      · intro x hx
        exact beq_iff_eq.mp (List.mem_filter.mp hx).2
      · intro hnil
        have : n0 ∈ ((g.nodes.filter (fun n => !(pKeep n.id))).filter
            (fun n => n.id == nid)) := by
          refine List.mem_filter.mpr ⟨List.mem_filter.mpr ⟨hn0mem, ?_⟩, ?_⟩
          · rw [hkeep0]
            rfl
          · rw [beq_iff_eq]
            exact hn0id
        rw [hnil] at this
        exact absurd this (List.not_mem_nil n0)
    omega
  · intro e hein m hm hkm
    rw [hee] at hein
    obtain ⟨_, hpred⟩ := List.mem_filter.mp hein
    rw [Bool.and_eq_true] at hpred
    constructor
    · rintro rfl
      rw [hkm] at hpred
      simp at hpred
    · rintro rfl
      rw [hkm] at hpred
      simp at hpred

/-- Witness for C1: removing the root of a two-node membership chain with
`pKeep = fun m => false` (everything is reachable from the root). -/
theorem claim_C1_removeNode_subtree_witness :
    (removeNode ⟨[⟨0, NodeType.undefined, "a", none⟩, ⟨1, NodeType.undefined, "a::b", none⟩],
        [⟨2, EdgeType.member, 0, 1⟩], 3⟩ 0).1.nodes
      = ([⟨0, NodeType.undefined, "a", none⟩, ⟨1, NodeType.undefined, "a::b", none⟩] : List Node).filter
          (fun _ => false)
    ∧ (removeNode ⟨[⟨0, NodeType.undefined, "a", none⟩, ⟨1, NodeType.undefined, "a::b", none⟩],
        [⟨2, EdgeType.member, 0, 1⟩], 3⟩ 0).1.edges
      = ([⟨2, EdgeType.member, 0, 1⟩] : List Edge).filter (fun _ => false && false)
    ∧ (removeNode ⟨[⟨0, NodeType.undefined, "a", none⟩, ⟨1, NodeType.undefined, "a::b", none⟩],
        [⟨2, EdgeType.member, 0, 1⟩], 3⟩ 0).1.nodes.length
        + (([⟨0, NodeType.undefined, "a", none⟩, ⟨1, NodeType.undefined, "a::b", none⟩] : List Node).filter
            (fun _ => !(false : Bool))).length
      = ([⟨0, NodeType.undefined, "a", none⟩, ⟨1, NodeType.undefined, "a::b", none⟩] : List Node).length
    ∧ (([⟨0, NodeType.undefined, "a", none⟩, ⟨1, NodeType.undefined, "a::b", none⟩] : List Node).filter
          (fun _ => !(false : Bool))).length
      = (([⟨0, NodeType.undefined, "a", none⟩, ⟨1, NodeType.undefined, "a::b", none⟩] : List Node).filter
          (fun n => !(false : Bool) && !(n.id == 0))).length + 1
    ∧ (∀ e ∈ (removeNode ⟨[⟨0, NodeType.undefined, "a", none⟩,
          ⟨1, NodeType.undefined, "a::b", none⟩], [⟨2, EdgeType.member, 0, 1⟩], 3⟩ 0).1.edges,
        ∀ m ∈ nodeIds ⟨[⟨0, NodeType.undefined, "a", none⟩,
          ⟨1, NodeType.undefined, "a::b", none⟩], [⟨2, EdgeType.member, 0, 1⟩], 3⟩,
          (fun _ => (false : Bool)) m = false → e.fromId ≠ m ∧ e.toId ≠ m) := by
  have hmedge : MemEdge ⟨[⟨0, NodeType.undefined, "a", none⟩,
      ⟨1, NodeType.undefined, "a::b", none⟩], [⟨2, EdgeType.member, 0, 1⟩], 3⟩ 0 1 :=
    ⟨⟨2, EdgeType.member, 0, 1⟩, List.mem_singleton.mpr rfl, rfl, rfl, rfl⟩
  have ha : MemAcyclic ⟨[⟨0, NodeType.undefined, "a", none⟩,
      ⟨1, NodeType.undefined, "a::b", none⟩], [⟨2, EdgeType.member, 0, 1⟩], 3⟩ := by
    intro e he _
    rw [List.mem_singleton] at he
    subst he
    intro hr
    rcases reachM_head hr with h | ⟨b, hmb, _⟩
    · exact absurd h (by decide)
    · obtain ⟨e', he', _, hfrom, _⟩ := hmb
      rw [List.mem_singleton] at he'
      subst he'
      exact absurd hfrom (by decide)
  exact claim_C1_removeNode_subtree _ 0 (fun _ => false)
    (by unfold UniqueNodeIds; decide) (by unfold EdgesClosed; decide) ha (by decide)
    (by
      intro m hm
      constructor
      · intro h
        simp at h
      · intro hnr
        exfalso
        apply hnr
        have hm' : m = 0 ∨ m = 1 := by simpa [nodeIds] using hm
        rcases hm' with rfl | rfl
        · exact ReachM.refl 0
        · exact ReachM.step (ReachM.refl 0) hmedge)

end SourcetrailGraph
